import Mathlib

/-!
Verification of the boxesandglue/typesetting shaping core.

This file gives a shallow embedding in Lean of the parts of the Go
sources that the verified claims are about, together with theorems
settling each claim.  Machine integers (uint32 masks and counters) are
modelled as `Nat` with explicit `% 2^32` wrapping where overflow can
occur; bitwise operations use `Nat`'s `&&&`, `|||`, `^^^`, `<<<`, `>>>`,
with Go's uint32 complement `^x` rendered as `2^32 - 1 - x`.  Stateful
buffer code becomes explicit list transformation.
-/

set_option maxRecDepth 4000

namespace Typesetting

/-! ## Glyph flag constants (harfbuzz/glyph.go) -/

/-- `GlyphUnsafeToBreak GlyphMask = 1 << iota` (glyph.go). -/
def GlyphUnsafeToBreak : Nat := 1

/-- `GlyphUnsafeToConcat` (glyph.go). -/
def GlyphUnsafeToConcat : Nat := 2

/-- `GlyphSafeToInsertTatweel` (glyph.go). -/
def GlyphSafeToInsertTatweel : Nat := 4

/-- `glyphFlagDefined = GlyphUnsafeToBreak | GlyphUnsafeToConcat | GlyphSafeToInsertTatweel` (glyph.go). -/
def glyphFlagDefined : Nat :=
  GlyphUnsafeToBreak ||| GlyphUnsafeToConcat ||| GlyphSafeToInsertTatweel

/-- Modelled from the spec: the buffer flag `PreserveDefaultIgnorables`
(§6 "optional flags"); the Go constant lives in the buffer file, which is
not among the provided sources.  Only distinctness of the flag bits
matters here. -/
def PreserveDefaultIgnorables : Nat := 1

/-- Modelled from the spec: the buffer flag `RemoveDefaultIgnorables` (§6). -/
def RemoveDefaultIgnorables : Nat := 2

/-- Modelled from the spec: the buffer flag `ProduceUnsafeToConcat` (§6). -/
def ProduceUnsafeToConcat : Nat := 4

/-- Modelled from the spec: the buffer flag `ProduceSafeToInsertTatweel` (§6). -/
def ProduceSafeToInsertTatweel : Nat := 8

/-- Modelled from the spec: the buffer scratch-flag bit
`has-default-ignorables` of the 30-bit `scratchFlags` bitset (§4.1); the
Go constants live in the buffer file, not among the provided sources. -/
def bsfHasDefaultIgnorables : Nat := 1

/-- Modelled from the spec: the scratch-flag bit `has-glyph-flags` (§4.1). -/
def bsfHasGlyphFlags : Nat := 2

/-- Modelled from the spec: the scratch-flag bit `has-GPOS-attachment` (§4.1). -/
def bsfHasGPOSAttachment : Nat := 4

/-- `upropsMaskIgnorable unicodeProp = 1 << (5 + iota)` (glyph.go). -/
def upropsMaskIgnorable : Nat := 1 <<< 5

/-- Modelled from the spec: the `substituted` glyph-props bit.  The Go
constant lives in a source file not provided here; glyph.go reads it via
`info.substituted()` and part_002 sets it (`props | substituted`).  Its
exact value is irrelevant, only that it is a single dedicated bit. -/
def substitutedProp : Nat := 16

/-! ## GlyphInfo (harfbuzz/glyph.go) -/

/-- The relevant fields of the Go `GlyphInfo` record (glyph.go):
cluster index, feature/flag mask, resolved glyph id, GDEF glyph
properties, unicode properties and the complex-shaper category byte. -/
structure GlyphInfo where
  cluster : Nat
  mask : Nat
  glyph : Nat
  glyphProps : Nat
  unicode : Nat
  complexCategory : Nat
  deriving DecidableEq, Repr, Inhabited

/-- `isDefaultIgnorable` (glyph.go): the unicode ignorable bit is set and
the glyph was not substituted. -/
def GlyphInfo.isDefaultIgnorable (info : GlyphInfo) : Bool :=
  info.unicode &&& upropsMaskIgnorable ≠ 0 && info.glyphProps &&& substitutedProp = 0

/-! ## Cluster runs and propagateFlags (harfbuzz/ot_shaper.go) -/

/-- Longest run of glyphs sharing cluster value `c` at the front of the
list, together with the remainder. -/
def splitRun (c : Nat) : List GlyphInfo → List GlyphInfo × List GlyphInfo
  | [] => ([], [])
  | g :: rest =>
    if g.cluster = c then
      let (r, o) := splitRun c rest
      (g :: r, o)
    else ([], g :: rest)

theorem splitRun_length (c : Nat) (l : List GlyphInfo) :
    (splitRun c l).2.length ≤ l.length := by
  induction l with
  | nil => simp [splitRun]
  | cons g rest ih =>
    simp only [splitRun]
    split
    · simpa using Nat.le_succ_of_le ih
    · simp

theorem splitRun_append (c : Nat) (l : List GlyphInfo) :
    (splitRun c l).1 ++ (splitRun c l).2 = l := by
  induction l with
  | nil => simp [splitRun]
  | cons g rest ih =>
    simp only [splitRun]
    split
    · simpa using ih
    · simp

/-- Fuel-driven worker for `clusterRuns`; the fuel is an upper bound on
the list length, so the recursion is structural and computable. -/
def clusterRunsF : Nat → List GlyphInfo → List (List GlyphInfo)
  | _, [] => []
  | 0, _ :: _ => []
  | fuel + 1, g :: rest =>
    (g :: (splitRun g.cluster rest).1) :: clusterRunsF fuel (splitRun g.cluster rest).2

/-- Modelled from the spec: the buffer's `clusterIterator` (used by
`propagateFlags`, ot_shaper.go), which walks the glyph list as maximal
runs of consecutive equal cluster values.  The iterator itself lives in
the buffer file, not among the provided sources. -/
def clusterRuns (l : List GlyphInfo) : List (List GlyphInfo) := clusterRunsF l.length l

/-- The merged flag mask of one cluster run:
`mask |= info[i].Mask & glyphFlagDefined` (ot_shaper.go, propagateFlags). -/
def runMergedMask (run : List GlyphInfo) : Nat :=
  run.foldl (fun m g => m ||| (g.mask &&& glyphFlagDefined)) 0

/-- The Go uint32 bitwise complement `^x`, for `x < 2^32`. -/
def wnot (x : Nat) : Nat := 2 ^ 32 - 1 - x

/-- The per-cluster mask adjustment of `propagateFlags`
(ot_shaper.go:736-748): the tatweel flip when `ProduceSafeToInsertTatweel`
is requested, then the clearing of `UnsafeToConcat` when
`ProduceUnsafeToConcat` was not requested.  Go's `mask &= ^c` is
`mask &&& wnot c`. -/
def adjustMask (flags mask : Nat) : Nat :=
  let flipTatweel := flags &&& ProduceSafeToInsertTatweel ≠ 0
  let clearConcat := flags &&& ProduceUnsafeToConcat = 0
  let mask :=
    if flipTatweel then
      let mask :=
        if mask &&& GlyphUnsafeToBreak ≠ 0 then mask &&& wnot GlyphSafeToInsertTatweel
        else mask
      if mask &&& GlyphSafeToInsertTatweel ≠ 0 then
        mask ||| (GlyphUnsafeToBreak ||| GlyphUnsafeToConcat)
      else mask
    else mask
  if clearConcat then mask &&& wnot GlyphUnsafeToConcat else mask

/-- `propagateFlags` (ot_shaper.go:710-754): if the buffer has glyph
flags, each cluster run's defined flag bits are merged, adjusted
according to the requested buffer flags, and written back as the `Mask`
of every glyph of the run. -/
def propagateFlags (flags scratchFlags : Nat) (info : List GlyphInfo) : List GlyphInfo :=
  if scratchFlags &&& bsfHasGlyphFlags = 0 then info
  else
    (clusterRuns info).flatMap fun run =>
      let mask := adjustMask flags (runMergedMask run)
      run.map fun g => { g with mask := mask }

/-! ## Bit-level helper lemmas -/

/-- The contiguous bit mask covering bits `[s, s+b)`. -/
def intervalMask (s b : Nat) : Nat := 2 ^ s * (2 ^ b - 1)

theorem mul_pred_div {E K : Nat} (hE : 0 < E) (hK : 0 < K) :
    (E * K - 1) / E = K - 1 := by
  rcases K with _ | k
  · omega
  · have h1 : E * (k + 1) - 1 = (E - 1) + E * k := by
      have : E * (k + 1) = E * k + E := by ring
      omega
    rw [h1, Nat.add_mul_div_left _ _ hE, Nat.div_eq_of_lt (by omega)]
    omega

theorem two_pow_sub_one_div_pow {b e : Nat} (h : e ≤ b) :
    (2 ^ b - 1) / 2 ^ e = 2 ^ (b - e) - 1 := by
  have hb : (2:Nat) ^ b = 2 ^ e * 2 ^ (b - e) := by
    rw [← pow_add]
    congr 1
    omega
  rw [hb, mul_pred_div (Nat.two_pow_pos e) (Nat.two_pow_pos (b - e))]

theorem testBit_intervalMask (s b t : Nat) :
    (intervalMask s b).testBit t = (decide (s ≤ t) && decide (t < s + b)) := by
  unfold intervalMask
  rcases Nat.lt_or_ge t s with h | h
  · have h1 : 2 ^ s * (2 ^ b - 1) = 2 ^ t * (2 ^ (s - t) * (2 ^ b - 1)) := by
      rw [← mul_assoc, ← pow_add]
      congr 2
      omega
    have h2 : 2 ^ (s - t) * (2 ^ b - 1) = 2 * (2 ^ (s - t - 1) * (2 ^ b - 1)) := by
      rw [← mul_assoc]
      congr 1
      rw [← pow_succ']
      congr 1
      omega
    rw [Nat.testBit_to_div_mod, h1, Nat.mul_div_cancel_left _ (Nat.two_pow_pos t), h2,
      Nat.mul_mod_right]
    simp [show ¬ s ≤ t by omega]
  · rcases Nat.lt_or_ge t (s + b) with h' | h'
    · have h1 : (2 ^ s * (2 ^ b - 1)) / 2 ^ t = (2 ^ b - 1) / 2 ^ (t - s) := by
        rw [show (2:Nat) ^ t = 2 ^ s * 2 ^ (t - s) by rw [← pow_add]; congr 1; omega]
        rw [← Nat.div_div_eq_div_mul, Nat.mul_div_cancel_left _ (Nat.two_pow_pos s)]
      rw [Nat.testBit_to_div_mod, h1, two_pow_sub_one_div_pow (by omega)]
      have h3 : (2:Nat) ^ (b - (t - s)) = 2 * 2 ^ (b - (t - s) - 1) := by
        rw [← pow_succ']
        congr 1
        omega
      have h4 : (0:Nat) < 2 ^ (b - (t - s) - 1) := Nat.two_pow_pos _
      have hL : (2 ^ (b - (t - s)) - 1) % 2 = 1 := by omega
      simp [hL, h, h']
    · have h1 : 2 ^ s * (2 ^ b - 1) < 2 ^ t := by
        calc 2 ^ s * (2 ^ b - 1) < 2 ^ s * 2 ^ b := by
              have hblt : (2:Nat) ^ b - 1 < 2 ^ b := by
                have := Nat.two_pow_pos b
                omega
              exact Nat.mul_lt_mul_of_le_of_lt (Nat.le_refl _) hblt (Nat.two_pow_pos s)
          _ = 2 ^ (s + b) := (pow_add 2 s b).symm
          _ ≤ 2 ^ t := Nat.pow_le_pow_right (by norm_num) h'
      rw [Nat.testBit_to_div_mod, Nat.div_eq_of_lt h1]
      simp [show ¬ t < s + b by omega]

theorem testBit_mul_add_low {k y m t : Nat} (ht : t < m) :
    (2 ^ m * k + y).testBit t = y.testBit t := by
  rw [Nat.testBit_to_div_mod, Nat.testBit_to_div_mod]
  have h1 : 2 ^ m * k + y = y + 2 ^ t * (2 ^ (m - t) * k) := by
    rw [← mul_assoc, ← pow_add, show t + (m - t) = m by omega]
    ring
  rw [h1, Nat.add_mul_div_left _ _ (Nat.two_pow_pos t)]
  have h2 : 2 ^ (m - t) * k = 2 * (2 ^ (m - t - 1) * k) := by
    rw [← mul_assoc]
    congr 1
    rw [← pow_succ']
    congr 1
    omega
  rw [h2]
  have h3 : (y / 2 ^ t + 2 * (2 ^ (m - t - 1) * k)) % 2 = y / 2 ^ t % 2 := by omega
  rw [h3]

theorem testBit_mul_add_high {k y m t : Nat} (hy : y < 2 ^ m) (ht : m ≤ t) :
    (2 ^ m * k + y).testBit t = (2 ^ m * k).testBit t := by
  rw [Nat.testBit_to_div_mod, Nat.testBit_to_div_mod]
  have hsplit : (2:Nat) ^ t = 2 ^ m * 2 ^ (t - m) := by
    rw [← pow_add]
    congr 1
    omega
  have h1 : (2 ^ m * k + y) / 2 ^ t = k / 2 ^ (t - m) := by
    rw [hsplit, ← Nat.div_div_eq_div_mul, Nat.mul_add_div (Nat.two_pow_pos m),
      Nat.div_eq_of_lt hy, Nat.add_zero]
  have h2 : (2 ^ m * k) / 2 ^ t = k / 2 ^ (t - m) := by
    rw [hsplit, ← Nat.div_div_eq_div_mul, Nat.mul_div_cancel_left _ (Nat.two_pow_pos m)]
  rw [h1, h2]

theorem land_two_pow_ne_zero_iff {v n : Nat} : v &&& 2 ^ n ≠ 0 ↔ v.testBit n = true := by
  rw [Nat.and_two_pow]
  rcases h : v.testBit n
  · simp
  · simp [(Nat.two_pow_pos n).ne']

/-! ## Set digest (harfbuzz/set_digest.go) -/

/-- `maskBits = 4 * 8` (set_digest.go). -/
def maskBits : Nat := 4 * 8

/-- `maskFor(g, shift) = 1 << ((g >> shift) & (maskBits - 1))` (set_digest.go). -/
def maskFor (g shift : Nat) : Nat := 1 <<< ((g >>> shift) &&& (maskBits - 1))

/-- uint32 wrap-around addition. -/
def wadd (x y : Nat) : Nat := (x + y) % 2 ^ 32

/-- uint32 wrap-around subtraction. -/
def wsub (x y : Nat) : Nat := (x + (2 ^ 32 - y % 2 ^ 32)) % 2 ^ 32

/-- `setBits.add` (set_digest.go): `*sd |= maskFor(g, shift)`. -/
def setBitsAdd (sd g shift : Nat) : Nat := sd ||| maskFor g shift

/-- `setBits.addRange` (set_digest.go): either flood the word, or
`*sd |= mb + (mb - ma) - op` in uint32 arithmetic. -/
def setBitsAddRange (sd a b shift : Nat) : Nat :=
  if (b >>> shift) - (a >>> shift) ≥ maskBits - 1 then 2 ^ 32 - 1
  else
    let mb := maskFor b shift
    let ma := maskFor a shift
    let op := if mb < ma then 1 else 0
    sd ||| wsub (wadd mb (wsub mb ma)) op

/-- `setBits.addArray` (set_digest.go). -/
def setBitsAddArray (sd : Nat) (arr : List Nat) (shift : Nat) : Nat :=
  arr.foldl (fun s g => setBitsAdd s g shift) sd

/-- `setBits.mayHave` (set_digest.go): `sd & maskFor(g, shift) != 0`. -/
def setBitsMayHave (sd g shift : Nat) : Bool := sd &&& maskFor g shift ≠ 0

/-- The three shifts of the digest (set_digest.go): `shift0 = 4`,
`shift1 = 0`, `shift2 = 9`. -/
def shift0 : Nat := 4

def shift1 : Nat := 0

def shift2 : Nat := 9

/-- `setDigest [3]setBits` (set_digest.go). -/
structure SetDigest where
  w0 : Nat
  w1 : Nat
  w2 : Nat
  deriving DecidableEq, Repr

/-- `setDigest.add` (set_digest.go). -/
def SetDigest.add (sd : SetDigest) (g : Nat) : SetDigest :=
  ⟨setBitsAdd sd.w0 g shift0, setBitsAdd sd.w1 g shift1, setBitsAdd sd.w2 g shift2⟩

/-- `setDigest.addRange` (set_digest.go). -/
def SetDigest.addRange (sd : SetDigest) (a b : Nat) : SetDigest :=
  ⟨setBitsAddRange sd.w0 a b shift0, setBitsAddRange sd.w1 a b shift1,
    setBitsAddRange sd.w2 a b shift2⟩

/-- `setDigest.addArray` (set_digest.go). -/
def SetDigest.addArray (sd : SetDigest) (arr : List Nat) : SetDigest :=
  ⟨setBitsAddArray sd.w0 arr shift0, setBitsAddArray sd.w1 arr shift1,
    setBitsAddArray sd.w2 arr shift2⟩

/-- `setDigest.mayHave` (set_digest.go): all three filter words must match. -/
def SetDigest.mayHave (sd : SetDigest) (g : Nat) : Bool :=
  setBitsMayHave sd.w0 g shift0 && setBitsMayHave sd.w1 g shift1 &&
    setBitsMayHave sd.w2 g shift2

/-- The insertion operations of a digest, for reasoning about later
queries after any sequence of further insertions. -/
inductive DigestOp where
  | add (g : Nat)
  | addArray (arr : List Nat)
  | addRange (a b : Nat)

def SetDigest.applyOp (sd : SetDigest) : DigestOp → SetDigest
  | .add g => sd.add g
  | .addArray arr => sd.addArray arr
  | .addRange a b => sd.addRange a b

def SetDigest.applyOps (sd : SetDigest) : List DigestOp → SetDigest
  | [] => sd
  | op :: ops => (sd.applyOp op).applyOps ops

/-! ### Digest correctness lemmas -/

theorem maskFor_eq (g shift : Nat) : maskFor g shift = 2 ^ ((g >>> shift) % 32) := by
  unfold maskFor maskBits
  rw [Nat.one_shiftLeft]
  congr 1
  rw [show (4 * 8 - 1 : Nat) = 2 ^ 5 - 1 by norm_num, Nat.and_pow_two_sub_one_eq_mod]

theorem setBitsMayHave_iff {sd g shift : Nat} :
    setBitsMayHave sd g shift = true ↔ sd.testBit ((g >>> shift) % 32) = true := by
  unfold setBitsMayHave
  rw [maskFor_eq]
  simp only [ne_eq, decide_eq_true_eq]
  exact land_two_pow_ne_zero_iff

theorem wsub_of_le {x y : Nat} (hy : y ≤ x) (hx : x < 2 ^ 32) : wsub x y = x - y := by
  unfold wsub
  rw [Nat.mod_eq_of_lt (show y < 2 ^ 32 by omega),
    show x + (2 ^ 32 - y) = (x - y) + 2 ^ 32 by omega, Nat.add_mod_right]
  exact Nat.mod_eq_of_lt (by omega)

theorem wsub_of_lt {x y : Nat} (hxy : x < y) (hy : y < 2 ^ 32) : wsub x y = x + 2 ^ 32 - y := by
  unfold wsub
  rw [Nat.mod_eq_of_lt hy, show x + (2 ^ 32 - y) = x + 2 ^ 32 - y by omega]
  exact Nat.mod_eq_of_lt (by omega)

theorem testBit_or_left {a b n : Nat} (h : a.testBit n = true) :
    (a ||| b).testBit n = true := by
  rw [Nat.testBit_or, h, Bool.true_or]

theorem testBit_or_right {a b n : Nat} (h : b.testBit n = true) :
    (a ||| b).testBit n = true := by
  rw [Nat.testBit_or, h, Bool.or_true]

theorem testBit_allOnes {n : Nat} (h : n < 32) : ((2 : Nat) ^ 32 - 1).testBit n = true := by
  have h1 : (2:Nat) ^ 32 - 1 = intervalMask 0 32 := by
    unfold intervalMask
    norm_num
  rw [h1, testBit_intervalMask]
  simp [h]

/-- The heart of `setBits.addRange`: the uint32 word
`mb + (mb - ma) - op` covers, cyclically, every bit position
`(x % 32)` for `i ≤ x ≤ j`, provided the window `j - i` is at most 30. -/
theorem rangeWord_testBit {i j x : Nat} (h1 : i ≤ x) (h2 : x ≤ j) (h3 : j - i ≤ 30) :
    (wsub (wadd (2 ^ (j % 32)) (wsub (2 ^ (j % 32)) (2 ^ (i % 32))))
      (if 2 ^ (j % 32) < 2 ^ (i % 32) then 1 else 0)).testBit (x % 32) = true := by
  set i' := i % 32 with hi'def
  set j' := j % 32 with hj'def
  set x' := x % 32 with hx'def
  have hi32 : i' < 32 := by omega
  have hj32 : j' < 32 := by omega
  have hx32 : x' < 32 := by omega
  set D := j - i with hDdef
  set d := x - i with hddef
  have hdD : d ≤ D := by omega
  have hj'm : j' = (i' + D) % 32 := by omega
  have hx'm : x' = (i' + d) % 32 := by omega
  rcases Nat.lt_or_ge (i' + D) 32 with hA | hB
  · -- no wrap: the word is the contiguous mask of bits [i', i' + D]
    have hj'' : j' = i' + D := by omega
    have hx'' : x' = i' + d := by omega
    have hle : (2:Nat) ^ i' ≤ 2 ^ j' := Nat.pow_le_pow_right (by norm_num) (by omega)
    have hlt2 : (2:Nat) ^ j' < 2 ^ 32 := Nat.pow_lt_pow_right (by norm_num) (by omega)
    rw [if_neg (by omega : ¬ (2:Nat) ^ j' < 2 ^ i'), wsub_of_le hle hlt2]
    have h2j : (2:Nat) ^ (j' + 1) = 2 ^ j' * 2 := pow_succ 2 j'
    have hsum : 2 ^ j' + (2 ^ j' - 2 ^ i') = 2 ^ (j' + 1) - 2 ^ i' := by omega
    have hlt3 : (2:Nat) ^ (j' + 1) - 2 ^ i' < 2 ^ 32 := by
      have : (2:Nat) ^ (j' + 1) ≤ 2 ^ 32 := Nat.pow_le_pow_right (by norm_num) (by omega)
      have := Nat.two_pow_pos i'
      omega
    rw [wadd, hsum, Nat.mod_eq_of_lt hlt3, wsub_of_le (by omega) hlt3, Nat.sub_zero]
    have hval : (2:Nat) ^ (j' + 1) - 2 ^ i' = intervalMask i' (D + 1) := by
      unfold intervalMask
      have hPQ : (2:Nat) ^ i' * 2 ^ (D + 1) = 2 ^ (j' + 1) := by
        rw [← pow_add]
        congr 1
        omega
      have hstep : (2:Nat) ^ i' * (2 ^ (D + 1) - 1) + 2 ^ i' = 2 ^ i' * 2 ^ (D + 1) := by
        rw [← Nat.mul_succ]
        congr 1
        have := Nat.two_pow_pos (D + 1)
        omega
      omega
    rw [hval, testBit_intervalMask]
    simp [show i' ≤ x' by omega, show x' < i' + (D + 1) by omega]
  · -- wrap: the word is bits [i', 31] together with bits [0, j']
    have hj'' : j' = i' + D - 32 := by omega
    have hjlt : j' + 1 < i' := by omega
    have hmb_lt : (2:Nat) ^ j' < 2 ^ i' := Nat.pow_lt_pow_right (by norm_num) (by omega)
    have hma_lt : (2:Nat) ^ i' < 2 ^ 32 := Nat.pow_lt_pow_right (by norm_num) (by omega)
    rw [if_pos hmb_lt, wsub_of_lt hmb_lt hma_lt]
    have h2j : (2:Nat) ^ (j' + 1) = 2 ^ j' * 2 := pow_succ 2 j'
    have hj1_lt : (2:Nat) ^ (j' + 1) < 2 ^ i' := Nat.pow_lt_pow_right (by norm_num) (by omega)
    have hsum : 2 ^ j' + (2 ^ j' + 2 ^ 32 - 2 ^ i') = 2 ^ (j' + 1) + 2 ^ 32 - 2 ^ i' := by
      omega
    have hv1 : (2:Nat) ^ (j' + 1) + 2 ^ 32 - 2 ^ i' < 2 ^ 32 := by omega
    have hv2 : (1:Nat) ≤ 2 ^ (j' + 1) + 2 ^ 32 - 2 ^ i' := by
      have := Nat.two_pow_pos (j' + 1)
      omega
    rw [wadd, hsum, Nat.mod_eq_of_lt hv1, wsub_of_le hv2 hv1]
    have hP : (2:Nat) ^ i' * 2 ^ (32 - i') = 2 ^ 32 := by
      rw [← pow_add]
      congr 1
      omega
    have hstep : (2:Nat) ^ i' * (2 ^ (32 - i') - 1) + 2 ^ i' = 2 ^ i' * 2 ^ (32 - i') := by
      rw [← Nat.mul_succ]
      congr 1
      have := Nat.two_pow_pos (32 - i')
      omega
    have hyq : (0:Nat) < 2 ^ (j' + 1) := Nat.two_pow_pos _
    have hval : 2 ^ (j' + 1) + 2 ^ 32 - 2 ^ i' - 1 =
        2 ^ i' * (2 ^ (32 - i') - 1) + (2 ^ (j' + 1) - 1) := by omega
    rw [hval]
    have hylt : (2:Nat) ^ (j' + 1) - 1 < 2 ^ i' := by omega
    rcases Nat.lt_or_ge (i' + d) 32 with hB1 | hB2
    · have hx'' : x' = i' + d := by omega
      rw [testBit_mul_add_high hylt (by omega)]
      rw [show (2:Nat) ^ i' * (2 ^ (32 - i') - 1) = intervalMask i' (32 - i') from rfl,
        testBit_intervalMask]
      simp [show i' ≤ x' by omega, show x' < i' + (32 - i') by omega]
    · have hx'' : x' = i' + d - 32 := by omega
      have hxj : x' ≤ j' := by omega
      rw [testBit_mul_add_low (show x' < i' by omega)]
      rw [show (2:Nat) ^ (j' + 1) - 1 = intervalMask 0 (j' + 1) by simp [intervalMask],
        testBit_intervalMask]
      simp [show x' < j' + 1 by omega]

theorem setBitsAdd_testBit_self (sd g shift : Nat) :
    (setBitsAdd sd g shift).testBit ((g >>> shift) % 32) = true := by
  unfold setBitsAdd
  exact testBit_or_right (by rw [maskFor_eq]; exact Nat.testBit_two_pow_self)

theorem setBitsAddRange_testBit_self {sd a b g shift : Nat} (hag : a ≤ g) (hgb : g ≤ b) :
    (setBitsAddRange sd a b shift).testBit ((g >>> shift) % 32) = true := by
  have hmono1 : a >>> shift ≤ g >>> shift := by
    simp only [Nat.shiftRight_eq_div_pow]
    exact Nat.div_le_div_right hag
  have hmono2 : g >>> shift ≤ b >>> shift := by
    simp only [Nat.shiftRight_eq_div_pow]
    exact Nat.div_le_div_right hgb
  unfold setBitsAddRange
  split
  · exact testBit_allOnes (by omega)
  · next h =>
    unfold maskBits at h
    simp only [maskFor_eq]
    exact testBit_or_right (rangeWord_testBit hmono1 hmono2 (by omega))

theorem setBitsAdd_preserves {sd e : Nat} (g shift : Nat) (h : sd.testBit e = true) :
    (setBitsAdd sd g shift).testBit e = true := testBit_or_left h

theorem setBitsAddArray_preserves {sd e : Nat} (arr : List Nat) (shift : Nat)
    (h : sd.testBit e = true) : (setBitsAddArray sd arr shift).testBit e = true := by
  induction arr generalizing sd with
  | nil => exact h
  | cons g rest ih => exact ih (setBitsAdd_preserves g shift h)

theorem setBitsAddRange_preserves {sd e : Nat} (a b shift : Nat) (he : e < 32)
    (h : sd.testBit e = true) : (setBitsAddRange sd a b shift).testBit e = true := by
  unfold setBitsAddRange
  split
  · exact testBit_allOnes he
  · exact testBit_or_left h

theorem setBitsAddArray_testBit_mem {sd : Nat} {arr : List Nat} {g : Nat} (shift : Nat)
    (hg : g ∈ arr) : (setBitsAddArray sd arr shift).testBit ((g >>> shift) % 32) = true := by
  induction arr generalizing sd with
  | nil => cases hg
  | cons a rest ih =>
    rcases List.mem_cons.mp hg with rfl | hmem
    · exact setBitsAddArray_preserves rest shift (setBitsAdd_testBit_self sd g shift)
    · exact ih hmem

theorem SetDigest.add_mayHave (sd : SetDigest) (g : Nat) : (sd.add g).mayHave g = true := by
  unfold SetDigest.mayHave SetDigest.add
  simp only [Bool.and_eq_true]
  exact ⟨⟨setBitsMayHave_iff.mpr (setBitsAdd_testBit_self _ g shift0),
    setBitsMayHave_iff.mpr (setBitsAdd_testBit_self _ g shift1)⟩,
    setBitsMayHave_iff.mpr (setBitsAdd_testBit_self _ g shift2)⟩

theorem SetDigest.addArray_mayHave (sd : SetDigest) {arr : List Nat} {g : Nat}
    (hg : g ∈ arr) : (sd.addArray arr).mayHave g = true := by
  unfold SetDigest.mayHave SetDigest.addArray
  simp only [Bool.and_eq_true]
  exact ⟨⟨setBitsMayHave_iff.mpr (setBitsAddArray_testBit_mem shift0 hg),
    setBitsMayHave_iff.mpr (setBitsAddArray_testBit_mem shift1 hg)⟩,
    setBitsMayHave_iff.mpr (setBitsAddArray_testBit_mem shift2 hg)⟩

theorem SetDigest.addRange_mayHave (sd : SetDigest) {a b g : Nat} (hag : a ≤ g)
    (hgb : g ≤ b) : (sd.addRange a b).mayHave g = true := by
  unfold SetDigest.mayHave SetDigest.addRange
  simp only [Bool.and_eq_true]
  exact ⟨⟨setBitsMayHave_iff.mpr (setBitsAddRange_testBit_self hag hgb),
    setBitsMayHave_iff.mpr (setBitsAddRange_testBit_self hag hgb)⟩,
    setBitsMayHave_iff.mpr (setBitsAddRange_testBit_self hag hgb)⟩

theorem SetDigest.applyOp_mayHave_mono {sd : SetDigest} {g : Nat} (op : DigestOp)
    (h : sd.mayHave g = true) : (sd.applyOp op).mayHave g = true := by
  unfold SetDigest.mayHave at h ⊢
  simp only [Bool.and_eq_true] at h
  obtain ⟨⟨h0, h1⟩, h2⟩ := h
  rw [setBitsMayHave_iff] at h0 h1 h2
  have hlt : ∀ y s : Nat, (y >>> s) % 32 < 32 := fun y s => Nat.mod_lt _ (by norm_num)
  simp only [Bool.and_eq_true]
  cases op with
  | add g' =>
    exact ⟨⟨setBitsMayHave_iff.mpr (setBitsAdd_preserves _ _ h0),
      setBitsMayHave_iff.mpr (setBitsAdd_preserves _ _ h1)⟩,
      setBitsMayHave_iff.mpr (setBitsAdd_preserves _ _ h2)⟩
  | addArray arr =>
    exact ⟨⟨setBitsMayHave_iff.mpr (setBitsAddArray_preserves _ _ h0),
      setBitsMayHave_iff.mpr (setBitsAddArray_preserves _ _ h1)⟩,
      setBitsMayHave_iff.mpr (setBitsAddArray_preserves _ _ h2)⟩
  | addRange a b =>
    exact ⟨⟨setBitsMayHave_iff.mpr (setBitsAddRange_preserves _ _ _ (hlt g shift0) h0),
      setBitsMayHave_iff.mpr (setBitsAddRange_preserves _ _ _ (hlt g shift1) h1)⟩,
      setBitsMayHave_iff.mpr (setBitsAddRange_preserves _ _ _ (hlt g shift2) h2)⟩

theorem SetDigest.applyOps_mayHave_mono {sd : SetDigest} {g : Nat} (ops : List DigestOp)
    (h : sd.mayHave g = true) : (sd.applyOps ops).mayHave g = true := by
  induction ops generalizing sd with
  | nil => exact h
  | cons op rest ih => exact ih (SetDigest.applyOp_mayHave_mono op h)

/-- **C6**: the set digest has no false negatives: a glyph id inserted
via `add`, `addArray`, or `addRange` (any id inside the inclusive range)
is reported by every subsequent `mayHave` query — each of the three
32-bit filter words, built with shifts 4, 0 and 9, matches — no matter
which further insertions happen in between. -/
theorem setDigest_no_false_negatives :
    (∀ (sd : SetDigest) (g : Nat) (ops : List DigestOp),
      ((sd.add g).applyOps ops).mayHave g = true) ∧
    (∀ (sd : SetDigest) (arr : List Nat) (g : Nat) (ops : List DigestOp), g ∈ arr →
      ((sd.addArray arr).applyOps ops).mayHave g = true) ∧
    (∀ (sd : SetDigest) (a b g : Nat) (ops : List DigestOp), a ≤ g → g ≤ b →
      ((sd.addRange a b).applyOps ops).mayHave g = true) := by
  refine ⟨fun sd g ops => ?_, fun sd arr g ops hg => ?_, fun sd a b g ops hag hgb => ?_⟩
  · exact SetDigest.applyOps_mayHave_mono ops (SetDigest.add_mayHave sd g)
  · exact SetDigest.applyOps_mayHave_mono ops (SetDigest.addArray_mayHave sd hg)
  · exact SetDigest.applyOps_mayHave_mono ops (SetDigest.addRange_mayHave sd hag hgb)

/-- Witness for C6 at concrete inputs. -/
theorem setDigest_no_false_negatives_witness :
    ((⟨0, 0, 0⟩ : SetDigest).add 1234).mayHave 1234 = true ∧
    ((⟨0, 0, 0⟩ : SetDigest).addArray [7, 42]).mayHave 42 = true ∧
    ((⟨0, 0, 0⟩ : SetDigest).addRange 100 700).mayHave 345 = true :=
  ⟨setDigest_no_false_negatives.1 ⟨0, 0, 0⟩ 1234 [],
    setDigest_no_false_negatives.2.1 ⟨0, 0, 0⟩ [7, 42] 42 [] (by decide),
    setDigest_no_false_negatives.2.2 ⟨0, 0, 0⟩ 100 700 345 [] (by decide) (by decide)⟩

/-! ## C3 / C10: flag propagation -/

theorem land_one_ne {v : Nat} : v &&& 1 ≠ 0 ↔ v.testBit 0 = true := by
  have h := @land_two_pow_ne_zero_iff v 0
  rwa [pow_zero] at h

theorem land_two_ne {v : Nat} : v &&& 2 ≠ 0 ↔ v.testBit 1 = true := by
  have h := @land_two_pow_ne_zero_iff v 1
  rwa [pow_one] at h

theorem land_four_ne {v : Nat} : v &&& 4 ≠ 0 ↔ v.testBit 2 = true := by
  have h := @land_two_pow_ne_zero_iff v 2
  rwa [show (2:Nat) ^ 2 = 4 by norm_num] at h

/-- Elements of a cluster run come from the original glyph list. -/
theorem clusterRunsF_mem {fuel : Nat} {l run : List GlyphInfo} {g : GlyphInfo}
    (hf : l.length ≤ fuel) (hr : run ∈ clusterRunsF fuel l) (hg : g ∈ run) : g ∈ l := by
  induction fuel generalizing l with
  | zero =>
    cases l with
    | nil => cases hr
    | cons a rest => simp at hf
  | succ fuel ih =>
    cases l with
    | nil => cases hr
    | cons a rest =>
      simp only [clusterRunsF, List.mem_cons] at hr
      rcases hr with rfl | hr
      · rcases List.mem_cons.mp hg with rfl | hg1
        · exact List.mem_cons_self ..
        · have : g ∈ (splitRun a.cluster rest).1 ++ (splitRun a.cluster rest).2 :=
            List.mem_append.mpr (Or.inl hg1)
          rw [splitRun_append] at this
          exact List.mem_cons_of_mem a this
      · have hlen : (splitRun a.cluster rest).2.length ≤ fuel := by
          have := splitRun_length a.cluster rest
          simp at hf
          omega
        have : g ∈ (splitRun a.cluster rest).2 := ih hlen hr
        have : g ∈ (splitRun a.cluster rest).1 ++ (splitRun a.cluster rest).2 :=
          List.mem_append.mpr (Or.inr this)
        rw [splitRun_append] at this
        exact List.mem_cons_of_mem a this

theorem runMergedMask_testBit (run : List GlyphInfo) (k : Nat) :
    (runMergedMask run).testBit k =
      run.any fun g => (g.mask &&& glyphFlagDefined).testBit k := by
  unfold runMergedMask
  suffices h : ∀ (init : Nat),
      (run.foldl (fun m g => m ||| (g.mask &&& glyphFlagDefined)) init).testBit k =
        (init.testBit k || run.any fun g => (g.mask &&& glyphFlagDefined).testBit k) by
    rw [h 0, Nat.zero_testBit, Bool.false_or]
  induction run with
  | nil => simp
  | cons g rest ih =>
    intro init
    simp only [List.foldl_cons, List.any_cons, ih, Nat.testBit_or, Bool.or_assoc]

/-- Under `ProduceUnsafeToConcat`, the per-cluster mask adjustment keeps
the invariant break-implies-concat. -/
theorem adjustMask_break_concat {flags m : Nat}
    (hreq : ¬ flags &&& ProduceUnsafeToConcat = 0)
    (h : m.testBit 0 = true → m.testBit 1 = true) :
    (adjustMask flags m).testBit 0 = true → (adjustMask flags m).testBit 1 = true := by
  have hw0 : (wnot 4).testBit 0 = true := by decide
  have hw1 : (wnot 4).testBit 1 = true := by decide
  have h31 : Nat.testBit 3 1 = true := by decide
  simp only [adjustMask, GlyphUnsafeToBreak, GlyphUnsafeToConcat, GlyphSafeToInsertTatweel]
  rw [if_neg hreq]
  split
  · split
    · split
      · intro _
        simp [Nat.testBit_or, h31]
      · simp only [Nat.testBit_and, hw0, hw1, Bool.and_true]
        exact h
    · split
      · intro _
        simp [Nat.testBit_or, h31]
      · exact h
  · exact h

/-- Under `ProduceSafeToInsertTatweel`, the adjusted mask carries
unsafe-to-break wherever it still carries safe-to-insert-tatweel. -/
theorem adjustMask_tatweel_implies_break {flags m : Nat}
    (hreq : ¬ flags &&& ProduceSafeToInsertTatweel = 0) :
    (adjustMask flags m).testBit 2 = true → (adjustMask flags m).testBit 0 = true := by
  have hw20 : (wnot 2).testBit 0 = true := by decide
  have hw22 : (wnot 2).testBit 2 = true := by decide
  have h30 : Nat.testBit 3 0 = true := by decide
  simp only [adjustMask, GlyphUnsafeToBreak, GlyphUnsafeToConcat, GlyphSafeToInsertTatweel]
  rw [if_pos hreq]
  have main : ∀ m2 : Nat,
      ((if m2 &&& 4 ≠ 0 then m2 ||| (1 ||| 2) else m2)).testBit 2 = true →
        ((if m2 &&& 4 ≠ 0 then m2 ||| (1 ||| 2) else m2)).testBit 0 = true := by
    intro m2
    split
    · intro _
      simp [Nat.testBit_or, h30]
    · next hno =>
      intro h2
      exact absurd (land_four_ne.mpr h2) hno
  split
  · simp only [Nat.testBit_and, hw20, hw22, Bool.and_true]
    exact main _
  · exact main _

/-- Under `ProduceSafeToInsertTatweel`, a merged cluster mask that
carried unsafe-to-break has safe-to-insert-tatweel cleared by the
adjustment. -/
theorem adjustMask_break_clears_tatweel {flags m : Nat}
    (hreq : ¬ flags &&& ProduceSafeToInsertTatweel = 0)
    (hbreak : m.testBit 0 = true) :
    (adjustMask flags m).testBit 2 = false := by
  have hw42 : (wnot 4).testBit 2 = false := by decide
  have hw22 : (wnot 2).testBit 2 = true := by decide
  simp only [adjustMask, GlyphUnsafeToBreak, GlyphUnsafeToConcat, GlyphSafeToInsertTatweel]
  rw [if_pos hreq, if_pos (land_one_ne.mpr hbreak)]
  have hm2 : (m &&& wnot 4).testBit 2 = false := by
    rw [Nat.testBit_and, hw42]
    simp
  have hfour : ¬ (m &&& wnot 4 &&& 4 ≠ 0) := fun hc =>
    absurd (land_four_ne.mp hc) (by simp [hm2])
  rw [if_neg hfour]
  split
  · rw [Nat.testBit_and, hm2]
    rfl
  · exact hm2

/-- **C3 (amended)**: after a shape call *with the `ProduceUnsafeToConcat`
buffer flag requested*, `UnsafeToBreak` implies `UnsafeToConcat` on every
output glyph, provided the incoming masks satisfy the same implication
(which the buffer's flagging operations maintain).  Without that buffer
flag the code deliberately clears `UnsafeToConcat` (see the
counterexample), so the claim's "regardless of which buffer flags were
requested" does not hold. -/
theorem propagateFlags_break_implies_concat (flags scratchFlags : Nat)
    (info : List GlyphInfo)
    (hreq : flags &&& ProduceUnsafeToConcat ≠ 0)
    (hin : ∀ g ∈ info, g.mask &&& GlyphUnsafeToBreak ≠ 0 →
      g.mask &&& GlyphUnsafeToConcat ≠ 0) :
    ∀ g ∈ propagateFlags flags scratchFlags info,
      g.mask &&& GlyphUnsafeToBreak ≠ 0 → g.mask &&& GlyphUnsafeToConcat ≠ 0 := by
  unfold propagateFlags
  split
  · exact hin
  · intro g hg
    rw [List.mem_flatMap] at hg
    obtain ⟨run, hrun, hgrun⟩ := hg
    simp only [List.mem_map] at hgrun
    obtain ⟨orig, _, rfl⟩ := hgrun
    simp only [GlyphUnsafeToBreak, GlyphUnsafeToConcat, land_one_ne, land_two_ne]
    apply adjustMask_break_concat hreq
    rw [runMergedMask_testBit, runMergedMask_testBit]
    rw [List.any_eq_true]
    rintro ⟨a, ha, hbit⟩
    rw [List.any_eq_true]
    refine ⟨a, ha, ?_⟩
    have hmem : a ∈ info := clusterRunsF_mem (Nat.le_refl _) hrun ha
    have himp := hin a hmem
    simp only [GlyphUnsafeToBreak, GlyphUnsafeToConcat, land_one_ne, land_two_ne] at himp
    have hd1 : (glyphFlagDefined:Nat).testBit 0 = true := by decide
    have hd2 : (glyphFlagDefined:Nat).testBit 1 = true := by decide
    rw [Nat.testBit_and, hd1, Bool.and_true] at hbit
    rw [Nat.testBit_and, hd2, Bool.and_true]
    exact himp hbit

/-- Witness for the amended C3 at a concrete input. -/
theorem propagateFlags_break_implies_concat_witness :
    (ProduceUnsafeToConcat &&& ProduceUnsafeToConcat ≠ 0) ∧
    (∀ g ∈ propagateFlags ProduceUnsafeToConcat bsfHasGlyphFlags
        [⟨0, GlyphUnsafeToBreak ||| GlyphUnsafeToConcat, 10, 0, 0, 0⟩, ⟨1, 0, 11, 0, 0, 0⟩],
      g.mask &&& GlyphUnsafeToBreak ≠ 0 → g.mask &&& GlyphUnsafeToConcat ≠ 0) :=
  ⟨by decide,
    propagateFlags_break_implies_concat _ _ _ (by decide) (by decide)⟩

/-- **C3 counterexample**: with `ProduceUnsafeToConcat` *not* requested,
a cluster whose merged mask is `UnsafeToBreak | UnsafeToConcat` comes out
of `propagateFlags` carrying `UnsafeToBreak` but not `UnsafeToConcat`,
refuting "UnsafeToBreak implies UnsafeToConcat for every glyph regardless
of which buffer flags were requested". -/
theorem propagateFlags_concat_cleared_counterexample :
    (propagateFlags 0 bsfHasGlyphFlags
        [⟨0, GlyphUnsafeToBreak ||| GlyphUnsafeToConcat, 10, 0, 0, 0⟩]).any
      (fun g => g.mask &&& GlyphUnsafeToBreak ≠ 0 && g.mask &&& GlyphUnsafeToConcat = 0)
      = true := by decide

/-- **C10**: with the `ProduceSafeToInsertTatweel` buffer flag set (and
the buffer carrying glyph flags, so that propagation runs), after
`propagateFlags` (a) every output glyph whose mask carries
`SafeToInsertTatweel` also carries `UnsafeToBreak`, and (b) every cluster
whose merged mask originally carried `UnsafeToBreak` gets
`SafeToInsertTatweel` cleared in its propagated mask. -/
theorem propagateFlags_tatweel (flags scratchFlags : Nat) (info : List GlyphInfo)
    (hreq : flags &&& ProduceSafeToInsertTatweel ≠ 0)
    (hscr : scratchFlags &&& bsfHasGlyphFlags ≠ 0) :
    (∀ g ∈ propagateFlags flags scratchFlags info,
      g.mask &&& GlyphSafeToInsertTatweel ≠ 0 → g.mask &&& GlyphUnsafeToBreak ≠ 0) ∧
    (∀ run ∈ clusterRuns info, runMergedMask run &&& GlyphUnsafeToBreak ≠ 0 →
      adjustMask flags (runMergedMask run) &&& GlyphSafeToInsertTatweel = 0) := by
  constructor
  · unfold propagateFlags
    rw [if_neg hscr]
    intro g hg
    rw [List.mem_flatMap] at hg
    obtain ⟨run, hrun, hgrun⟩ := hg
    simp only [List.mem_map] at hgrun
    obtain ⟨orig, _, rfl⟩ := hgrun
    simp only [GlyphUnsafeToBreak, GlyphSafeToInsertTatweel, land_one_ne, land_four_ne]
    exact adjustMask_tatweel_implies_break hreq
  · intro run _ hbreak
    rw [GlyphUnsafeToBreak, land_one_ne] at hbreak
    rw [GlyphSafeToInsertTatweel]
    by_contra hne
    exact absurd (adjustMask_break_clears_tatweel hreq hbreak)
      (by simp [← land_four_ne, hne])

/-- Witness for C10 at a concrete input. -/
theorem propagateFlags_tatweel_witness :
    (ProduceSafeToInsertTatweel &&& ProduceSafeToInsertTatweel ≠ 0) ∧
    (bsfHasGlyphFlags &&& bsfHasGlyphFlags ≠ 0) ∧
    ((∀ g ∈ propagateFlags ProduceSafeToInsertTatweel bsfHasGlyphFlags
        [⟨0, GlyphSafeToInsertTatweel, 10, 0, 0, 0⟩,
          ⟨1, GlyphUnsafeToBreak ||| GlyphUnsafeToConcat ||| GlyphSafeToInsertTatweel, 11, 0, 0, 0⟩],
      g.mask &&& GlyphSafeToInsertTatweel ≠ 0 → g.mask &&& GlyphUnsafeToBreak ≠ 0) ∧
    (∀ run ∈ clusterRuns
        [⟨0, GlyphSafeToInsertTatweel, 10, 0, 0, 0⟩,
          ⟨1, GlyphUnsafeToBreak ||| GlyphUnsafeToConcat ||| GlyphSafeToInsertTatweel, 11, 0, 0, 0⟩],
      runMergedMask run &&& GlyphUnsafeToBreak ≠ 0 →
      adjustMask ProduceSafeToInsertTatweel (runMergedMask run) &&&
        GlyphSafeToInsertTatweel = 0)) :=
  ⟨by decide, by decide,
    propagateFlags_tatweel _ _ _ (by decide) (by decide)⟩

/-! ## C9: hideDefaultIgnorables (harfbuzz/ot_shaper.go) -/

/-- The buffer fields read by `hideDefaultIgnorables` (ot_shaper.go):
buffer flags, scratch flags, the `Invisible` glyph id and the glyph
sequence. -/
structure Buffer where
  flags : Nat
  scratchFlags : Nat
  invisible : Nat
  info : List GlyphInfo
  deriving DecidableEq, Repr

/-- Modelled from the spec: the buffer operation `deleteGlyphsInplace(pred)`
(§4.1), called as `otLayoutDeleteGlyphsInplace` by `hideDefaultIgnorables`;
its defining file is not among the provided sources.  It removes from the
glyph sequence every glyph satisfying the predicate. -/
def otLayoutDeleteGlyphsInplace (p : GlyphInfo → Bool) (info : List GlyphInfo) :
    List GlyphInfo :=
  info.filter fun g => !(p g)

/-- `hideDefaultIgnorables` (ot_shaper.go:494-519).  `spaceGlyph` stands
for the result of `font.face.NominalGlyph(' ')`.  Note the Go code only
sets `ok` inside the `invisible == 0` branch. -/
def hideDefaultIgnorables (buffer : Buffer) (spaceGlyph : Option Nat) : List GlyphInfo :=
  if buffer.scratchFlags &&& bsfHasDefaultIgnorables = 0 ∨
      buffer.flags &&& PreserveDefaultIgnorables ≠ 0 then
    buffer.info
  else
    let p : Nat × Bool :=
      if buffer.invisible = 0 then
        match spaceGlyph with
        | some g => (g, true)
        | none => (0, false)
      else (buffer.invisible, false)
    if buffer.flags &&& RemoveDefaultIgnorables = 0 ∧ p.2 = true then
      buffer.info.map fun g =>
        if g.isDefaultIgnorable then { g with glyph := p.1 } else g
    else
      otLayoutDeleteGlyphsInplace GlyphInfo.isDefaultIgnorable buffer.info

/-- A default-ignorable, unsubstituted glyph. -/
def ignorableGlyph : GlyphInfo := ⟨0, 0, 7, 0, upropsMaskIgnorable, 0⟩

/-- **C9 counterexample**: with `Invisible = 5` nonzero,
`RemoveDefaultIgnorables` not set and a default-ignorable glyph in the
buffer, but `PreserveDefaultIgnorables` set, `hideDefaultIgnorables`
neither deletes nor replaces the glyph — the claim as stated omits the
`PreserveDefaultIgnorables` guard. -/
theorem hideDefaultIgnorables_preserve_counterexample :
    hideDefaultIgnorables
        ⟨PreserveDefaultIgnorables, bsfHasDefaultIgnorables, 5, [ignorableGlyph]⟩
        (some 3) = [ignorableGlyph] ∧
      ignorableGlyph.isDefaultIgnorable = true ∧
      PreserveDefaultIgnorables &&& RemoveDefaultIgnorables = 0 ∧
      (5:Nat) ≠ 0 := by decide

/-- **C9 (amended)**: provided additionally that
`PreserveDefaultIgnorables` is not set, a nonzero `Invisible` glyph id
forces the deletion branch: the `ok` flag is never set when `Invisible`
is nonzero, so the replacement branch (only reachable when `Invisible`
is zero and the space-glyph lookup succeeds) is skipped and the
default-ignorable glyphs are deleted from the buffer. -/
theorem hideDefaultIgnorables_deletes (buffer : Buffer) (spaceGlyph : Option Nat)
    (hinv : buffer.invisible ≠ 0)
    (hpres : buffer.flags &&& PreserveDefaultIgnorables = 0)
    (hscr : buffer.scratchFlags &&& bsfHasDefaultIgnorables ≠ 0) :
    hideDefaultIgnorables buffer spaceGlyph =
      buffer.info.filter fun g => !(g.isDefaultIgnorable) := by
  simp only [hideDefaultIgnorables, otLayoutDeleteGlyphsInplace]
  rw [if_neg (show ¬ (buffer.scratchFlags &&& bsfHasDefaultIgnorables = 0 ∨
      buffer.flags &&& PreserveDefaultIgnorables ≠ 0) from
    fun hc => hc.elim hscr fun hb => hb hpres)]
  rw [if_neg hinv]
  simp

/-- Witness for the amended C9 at a concrete input. -/
theorem hideDefaultIgnorables_deletes_witness :
    ((5:Nat) ≠ 0) ∧ (0 &&& PreserveDefaultIgnorables = 0) ∧
      (bsfHasDefaultIgnorables &&& bsfHasDefaultIgnorables ≠ 0) ∧
      hideDefaultIgnorables ⟨0, bsfHasDefaultIgnorables, 5,
          [ignorableGlyph, ⟨1, 0, 9, 0, 0, 0⟩]⟩ (some 3) =
        ([ignorableGlyph, ⟨1, 0, 9, 0, 0, 0⟩].filter fun g => !(g.isDefaultIgnorable)) :=
  ⟨by decide, by decide, by decide,
    hideDefaultIgnorables_deletes _ _ (by decide) (by decide) (by decide)⟩

/-! ## C1: limit exhaustion in the lookup loop (part_000, otMap.apply) -/

/-- The per-lookup loop of `otMap.apply` (part_000:485-550), with the
individual lookup applications abstracted as buffer transformations
(parameters of the model): before applying each lookup, the pathological
case guard `len(c.buffer.Info) > c.buffer.maxLen` returns from the whole
apply, keeping the buffer exactly as it is; no clearing happens. -/
def otMapApply (maxLen : Nat) :
    List (List GlyphInfo → List GlyphInfo) → List GlyphInfo → List GlyphInfo
  | [], buffer => buffer
  | lk :: rest, buffer =>
    if buffer.length > maxLen then buffer
    else otMapApply maxLen rest (lk buffer)

/-- `maxLen` initialisation in `shaperOpentype.shape` (ot_shaper.go:784-789):
`maxLen = max(len(Info)*maxLenFactor, maxLenMin)` with factor 64 and
minimum 16384. -/
def shapeMaxLen (n : Nat) : Nat := max (n * 64) 16384

/-- `maxOps` initialisation in `shaperOpentype.shape` (ot_shaper.go:784-789). -/
def shapeMaxOps (n : Nat) : Nat := max (n * 1024) 16384

/-- **C1 counterexample**: a one-glyph input (so `maxLen = 16384`) whose
first lookup blows the buffer up beyond the limit.  The apply loop stops
before the second lookup and returns the oversized buffer unchanged —
partial output is kept and the result is *not* an empty buffer, contrary
to the claim that limit exhaustion discards partial output and produces
an empty buffer. -/
theorem otMapApply_limit_counterexample :
    otMapApply (shapeMaxLen 1)
        [fun _ => List.replicate 16385 ignorableGlyph, fun b => b ++ b]
        [ignorableGlyph] = List.replicate 16385 ignorableGlyph ∧
      List.replicate 16385 ignorableGlyph ≠ ([] : List GlyphInfo) := by
  have h1 : shapeMaxLen 1 = 16384 := by norm_num [shapeMaxLen]
  constructor
  · have hc1 : ¬ ([ignorableGlyph] : List GlyphInfo).length > shapeMaxLen 1 := by
      rw [h1]
      norm_num
    have hc2 : (List.replicate 16385 ignorableGlyph).length > shapeMaxLen 1 := by
      rw [h1, List.length_replicate]
      norm_num
    rw [otMapApply, if_neg hc1]
    show otMapApply (shapeMaxLen 1) [fun b => b ++ b]
        (List.replicate 16385 ignorableGlyph) = _
    rw [otMapApply, if_pos hc2]
  · intro h
    have := congrArg List.length h
    rw [List.length_replicate] at this
    simp at this

/-- **C1 (amended)**: when the `maxLen` limit is exhausted, the apply
loop stops applying further lookups and returns with the buffer keeping
all already-applied changes; the output is the current buffer, not an
empty one. -/
theorem otMapApply_limit_keeps_buffer (maxLen : Nat)
    (lookups : List (List GlyphInfo → List GlyphInfo)) (buffer : List GlyphInfo)
    (h : buffer.length > maxLen) :
    otMapApply maxLen lookups buffer = buffer := by
  cases lookups with
  | nil => rfl
  | cons lk rest =>
    unfold otMapApply
    rw [if_pos h]

/-- Witness for the amended C1 at a concrete input. -/
theorem otMapApply_limit_keeps_buffer_witness :
    ([ignorableGlyph] : List GlyphInfo).length > 0 ∧
      otMapApply 0 [fun b => b ++ b] [ignorableGlyph] = [ignorableGlyph] :=
  ⟨by decide, otMapApply_limit_keeps_buffer 0 _ _ (by decide)⟩

/-! ## C2: nested-lookup recursion guard (part_002, otApplyContext.recurse) -/

/-- Modelled from the spec: the constant `maxNestingLevel` (= 64) that
`otApplyContext.reset` (part_002:365) assigns to `nestingLevelLeft`; its
defining file is not among the provided sources ("Recursion policy: each
recursion decrements `nestingLevelLeft` (initial 64)"). -/
def maxNestingLevel : Int := 64

/-- The observable outcome of one `recurse` call. -/
inductive RecurseOutcome where
  /-- Returns the given value without invoking the nested lookup;
  carries the updated `nestingLevelLeft` and `maxOps`. -/
  | ret (value : Bool) (nestingLevelLeft maxOps : Int)
  /-- Invokes `recurseFunc` (the nested lookup); carries the values of
  `nestingLevelLeft` and `maxOps` in effect during the nested call. -/
  | invoke (nestingLevelLeft maxOps : Int)
  /-- Calls a nil `recurseFunc`: a crash. -/
  | crash
  deriving DecidableEq, Repr

/-- `otApplyContext.recurse` (part_002:875-888), up to the invocation of
`recurseFunc`: the guard tests
`nestingLevelLeft == 0 || recurseFunc == nil || maxOps <= 0`, but its
body only returns when `maxOps <= 0`; otherwise it decrements `maxOps`
and falls through to `nestingLevelLeft--` and the `recurseFunc` call. -/
def recurseStep (nestingLevelLeft maxOps : Int) (hasRecurseFunc : Bool) : RecurseOutcome :=
  if nestingLevelLeft = 0 ∨ hasRecurseFunc = false ∨ maxOps ≤ 0 then
    if maxOps ≤ 0 then .ret false nestingLevelLeft (maxOps - 1)
    else if hasRecurseFunc then .invoke (nestingLevelLeft - 1) (maxOps - 1)
    else .crash
  else .invoke (nestingLevelLeft - 1) maxOps

/-- **C2 (code bug)**: at `nestingLevelLeft = 0` with operations budget
remaining, `recurse` does *not* return false: it decrements
`nestingLevelLeft` to `-1` and invokes the nested lookup, so the 64-level
clip never takes effect (the abort only happens when `maxOps` runs out);
with a nil `recurseFunc` the same fall-through dereferences nil.  The
first two conjuncts exhibit the failing input, the rest document the
intended initialisation and the normal path. -/
theorem recurse_zero_nesting_invokes :
    recurseStep 0 5 true = RecurseOutcome.invoke (-1) 4 ∧
      recurseStep 0 5 true ≠ RecurseOutcome.ret false 0 5 ∧
      recurseStep 5 5 false = RecurseOutcome.crash ∧
      recurseStep 0 0 true = RecurseOutcome.ret false 0 (-1) ∧
      recurseStep maxNestingLevel 5 true = RecurseOutcome.invoke (maxNestingLevel - 1) 5 := by
  decide

/-! ## C4: feature-info sorting and duplicate merging (part_000, otMapBuilder.compile) -/

/-- `otMapFeatureFlags` (part_000:16-31): `1 << iota`. -/
def ffGLOBAL : Nat := 1

def ffHasFallback : Nat := 2

def ffManualZWNJ : Nat := 4

def ffManualZWJ : Nat := 8

def ffGlobalSearch : Nat := 16

def ffRandom : Nat := 32

def ffPerSyllable : Nat := 64

/-- `featureInfo` (part_000:43-50). -/
structure FeatureInfo where
  tag : Nat
  maxValue : Nat
  flags : Nat
  defaultValue : Nat
  stage0 : Nat
  stage1 : Nat
  deriving DecidableEq, Repr

/-- One merge step of the duplicate-merging loop of `otMapBuilder.compile`
(part_000:164-177): `acc` is the record being accumulated at index `j`,
`feat` is the next duplicate at index `i`.  A global duplicate sets
GLOBAL and overwrites `maxValue` and `defaultValue`; a non-global
duplicate clears GLOBAL (if set) and takes the max of `maxValue`; only
the `ffHasFallback` bit of the duplicate's flags is OR-ed; the stages
take the per-table minimum. -/
def mergeStep (acc feat : FeatureInfo) : FeatureInfo :=
  let acc :=
    if feat.flags &&& ffGLOBAL ≠ 0 then
      { acc with flags := acc.flags ||| ffGLOBAL,
                 maxValue := feat.maxValue,
                 defaultValue := feat.defaultValue }
    else
      let acc :=
        if acc.flags &&& ffGLOBAL ≠ 0 then { acc with flags := acc.flags ^^^ ffGLOBAL }
        else acc
      { acc with maxValue := max acc.maxValue feat.maxValue }
  { acc with flags := acc.flags ||| (feat.flags &&& ffHasFallback),
             stage0 := min acc.stage0 feat.stage0,
             stage1 := min acc.stage1 feat.stage1 }

/-- The compaction loop over the tag-sorted list (part_000:154-179). -/
def mergeAdjacent : FeatureInfo → List FeatureInfo → List FeatureInfo
  | acc, [] => [acc]
  | acc, f :: rest =>
    if f.tag ≠ acc.tag then acc :: mergeAdjacent f rest
    else mergeAdjacent (mergeStep acc f) rest

/-- Stable insertion used by `sortByTag`: an element is inserted after
all already-placed elements with a smaller-or-equal tag. -/
def insertByTag (f : FeatureInfo) : List FeatureInfo → List FeatureInfo
  | [] => [f]
  | g :: rest => if g.tag < f.tag then g :: insertByTag f rest else f :: g :: rest

/-- The source's `sort.SliceStable(featureInfos, Tag < Tag)`
(part_000:151-153), rendered as a stable insertion sort (extensionally
equal to any stable sort by tag). -/
def sortByTag : List FeatureInfo → List FeatureInfo
  | [] => []
  | f :: rest => insertByTag f (sortByTag rest)

/-- The sort-and-merge phase of `otMapBuilder.compile` (part_000:149-180). -/
def sortAndMergeFeatures (infos : List FeatureInfo) : List FeatureInfo :=
  match sortByTag infos with
  | [] => []
  | f :: rest => mergeAdjacent f rest

/-- **C4 counterexample**: merging the duplicates
`{tag 100, flags none}` and `{tag 100, flags ffRandom}` (both
non-global) yields flags `0`, not the OR `ffRandom` — the merge only
ORs the `ffHasFallback` bit of a duplicate's flags, so "OR-ing flags"
is false. -/
theorem sortAndMergeFeatures_flags_counterexample :
    (sortAndMergeFeatures
        [⟨100, 1, 0, 0, 0, 0⟩, ⟨100, 1, ffRandom, 0, 0, 0⟩]).map FeatureInfo.flags
      = [0] ∧ (0:Nat) ≠ 0 ||| ffRandom := by decide

theorem mergeStep_tag (a f : FeatureInfo) : (mergeStep a f).tag = a.tag := by
  unfold mergeStep
  split
  · rfl
  · split <;> rfl

theorem mergeStep_stage0 (a f : FeatureInfo) :
    (mergeStep a f).stage0 = min a.stage0 f.stage0 := by
  unfold mergeStep
  split
  · rfl
  · split <;> rfl

theorem mergeStep_stage1 (a f : FeatureInfo) :
    (mergeStep a f).stage1 = min a.stage1 f.stage1 := by
  unfold mergeStep
  split
  · rfl
  · split <;> rfl

theorem mergeStep_flags_bit0 (a f : FeatureInfo) :
    (mergeStep a f).flags.testBit 0 = f.flags.testBit 0 := by
  have h10 : Nat.testBit 1 0 = true := by decide
  have h20 : Nat.testBit 2 0 = false := by decide
  unfold mergeStep
  split
  · next hg =>
    rw [ffGLOBAL, land_one_ne] at hg
    simp only [ffGLOBAL, ffHasFallback, Nat.testBit_or, Nat.testBit_and, h10, h20,
      Bool.and_false, Bool.or_false, Bool.or_true]
    exact hg.symm
  · next hg =>
    rw [ffGLOBAL, land_one_ne, Bool.not_eq_true] at hg
    split
    · next ha =>
      rw [ffGLOBAL, land_one_ne] at ha
      simp only [ffGLOBAL, ffHasFallback, Nat.testBit_or, Nat.testBit_and,
        Nat.testBit_xor, h10, h20, ha, hg, Bool.and_false, Bool.or_false]
      rfl
    · next ha =>
      rw [ffGLOBAL, land_one_ne, Bool.not_eq_true] at ha
      simp only [ffGLOBAL, ffHasFallback, Nat.testBit_or, Nat.testBit_and, h10, h20,
        ha, hg, Bool.and_false, Bool.or_false]

theorem mergeStep_flags_bit1 (a f : FeatureInfo) :
    (mergeStep a f).flags.testBit 1 = (a.flags.testBit 1 || f.flags.testBit 1) := by
  have h11 : Nat.testBit 1 1 = false := by decide
  have h21 : Nat.testBit 2 1 = true := by decide
  unfold mergeStep
  split
  · simp only [ffGLOBAL, ffHasFallback, Nat.testBit_or, Nat.testBit_and, h11, h21,
      Bool.or_false, Bool.and_true]
  · split
    · simp only [ffGLOBAL, ffHasFallback, Nat.testBit_or, Nat.testBit_and,
        Nat.testBit_xor, h11, h21, Bool.or_false, Bool.and_true, Bool.xor_false]
    · simp only [ffHasFallback, Nat.testBit_or, Nat.testBit_and, h21, Bool.and_true]

theorem mergeStep_flags_high (a f : FeatureInfo) (k : Nat) (hk : 2 ≤ k) :
    (mergeStep a f).flags.testBit k = a.flags.testBit k := by
  have h1k : Nat.testBit 1 k = false := by
    rw [show (1:Nat) = 2 ^ 0 by norm_num]
    exact Nat.testBit_two_pow_of_ne (by omega)
  have h2k : Nat.testBit 2 k = false := by
    rw [show (2:Nat) = 2 ^ 1 by norm_num]
    exact Nat.testBit_two_pow_of_ne (by omega)
  unfold mergeStep
  split
  · simp only [ffGLOBAL, ffHasFallback, Nat.testBit_or, Nat.testBit_and, h1k, h2k,
      Bool.or_false, Bool.and_false]
  · split
    · simp only [ffGLOBAL, ffHasFallback, Nat.testBit_or, Nat.testBit_and,
        Nat.testBit_xor, h1k, h2k, Bool.or_false, Bool.and_false, Bool.xor_false]
    · simp only [ffHasFallback, Nat.testBit_or, Nat.testBit_and, h2k, Bool.and_false,
        Bool.or_false]

theorem mergeStep_maxValue_nonglobal (a f : FeatureInfo) (h : f.flags &&& ffGLOBAL = 0) :
    (mergeStep a f).maxValue = max a.maxValue f.maxValue := by
  unfold mergeStep
  rw [if_neg (by simp [h])]
  split <;> rfl

theorem foldl_mergeStep_stage0 (d : FeatureInfo) (ds : List FeatureInfo) :
    (List.foldl mergeStep d ds).stage0 = (ds.map FeatureInfo.stage0).foldl min d.stage0 := by
  induction ds generalizing d with
  | nil => rfl
  | cons f rest ih =>
    simp only [List.foldl_cons, List.map_cons]
    rw [ih (mergeStep d f), mergeStep_stage0]

theorem foldl_mergeStep_stage1 (d : FeatureInfo) (ds : List FeatureInfo) :
    (List.foldl mergeStep d ds).stage1 = (ds.map FeatureInfo.stage1).foldl min d.stage1 := by
  induction ds generalizing d with
  | nil => rfl
  | cons f rest ih =>
    simp only [List.foldl_cons, List.map_cons]
    rw [ih (mergeStep d f), mergeStep_stage1]

theorem foldl_mergeStep_bit0 (d : FeatureInfo) (ds : List FeatureInfo) :
    (List.foldl mergeStep d ds).flags.testBit 0 = (ds.getLastD d).flags.testBit 0 := by
  induction ds generalizing d with
  | nil => rfl
  | cons f rest ih =>
    simp only [List.foldl_cons]
    rw [ih (mergeStep d f), List.getLastD_cons]
    cases rest with
    | nil => exact mergeStep_flags_bit0 d f
    | cons r rs => rw [List.getLastD_cons, List.getLastD_cons]

theorem foldl_mergeStep_bit1 (d : FeatureInfo) (ds : List FeatureInfo) :
    (List.foldl mergeStep d ds).flags.testBit 1 =
      (d.flags.testBit 1 || ds.any fun f => f.flags.testBit 1) := by
  induction ds generalizing d with
  | nil => simp
  | cons f rest ih =>
    simp only [List.foldl_cons, List.any_cons]
    rw [ih (mergeStep d f), mergeStep_flags_bit1, Bool.or_assoc]

theorem foldl_mergeStep_high (d : FeatureInfo) (ds : List FeatureInfo) (k : Nat)
    (hk : 2 ≤ k) :
    (List.foldl mergeStep d ds).flags.testBit k = d.flags.testBit k := by
  induction ds generalizing d with
  | nil => rfl
  | cons f rest ih =>
    simp only [List.foldl_cons]
    rw [ih (mergeStep d f), mergeStep_flags_high _ _ _ hk]

theorem foldl_mergeStep_maxValue (d : FeatureInfo) (ds : List FeatureInfo)
    (hng : ∀ f ∈ ds, f.flags &&& ffGLOBAL = 0) :
    (List.foldl mergeStep d ds).maxValue =
      (ds.map FeatureInfo.maxValue).foldl max d.maxValue := by
  induction ds generalizing d with
  | nil => rfl
  | cons f rest ih =>
    simp only [List.foldl_cons, List.map_cons]
    rw [ih (mergeStep d f) fun g hg => hng g (List.mem_cons_of_mem f hg),
      mergeStep_maxValue_nonglobal _ _ (hng f (List.mem_cons_self ..))]

theorem mergeAdjacent_same_tag (d : FeatureInfo) (ds : List FeatureInfo)
    (htag : ∀ f ∈ ds, f.tag = d.tag) :
    mergeAdjacent d ds = [List.foldl mergeStep d ds] := by
  induction ds generalizing d with
  | nil => rfl
  | cons f rest ih =>
    have hf : f.tag = d.tag := htag f (List.mem_cons_self ..)
    unfold mergeAdjacent
    rw [if_neg (by simp [hf])]
    exact ih (mergeStep d f) fun g hg => by
      rw [mergeStep_tag]
      exact htag g (List.mem_cons_of_mem f hg)

/-- **C4 (amended)**: over one group of equal-tag duplicates `d :: ds`
(the situation after the stable sort), the compaction loop produces the
single record `List.foldl mergeStep d ds`, whose stages are the
per-table minimum over the group, whose GLOBAL flag equals the *last*
duplicate's GLOBAL flag (it is not simply lost whenever any duplicate is
non-global), whose HasFallback bit is the OR over the group, whose
remaining flag bits are the first record's (so the duplicates' flags are
*not* OR-ed), and whose `maxValue` is the max over the group provided no
later duplicate is global (a later global duplicate overwrites it). -/
theorem sortAndMergeFeatures_group_characterisation (d : FeatureInfo)
    (ds : List FeatureInfo) (htag : ∀ f ∈ ds, f.tag = d.tag) :
    mergeAdjacent d ds = [List.foldl mergeStep d ds] ∧
    (List.foldl mergeStep d ds).stage0 =
      (ds.map FeatureInfo.stage0).foldl min d.stage0 ∧
    (List.foldl mergeStep d ds).stage1 =
      (ds.map FeatureInfo.stage1).foldl min d.stage1 ∧
    (List.foldl mergeStep d ds).flags.testBit 0 = (ds.getLastD d).flags.testBit 0 ∧
    (List.foldl mergeStep d ds).flags.testBit 1 =
      (d.flags.testBit 1 || ds.any fun f => f.flags.testBit 1) ∧
    (∀ k, 2 ≤ k → (List.foldl mergeStep d ds).flags.testBit k = d.flags.testBit k) ∧
    ((∀ f ∈ ds, f.flags &&& ffGLOBAL = 0) →
      (List.foldl mergeStep d ds).maxValue =
        (ds.map FeatureInfo.maxValue).foldl max d.maxValue) :=
  ⟨mergeAdjacent_same_tag d ds htag, foldl_mergeStep_stage0 d ds,
    foldl_mergeStep_stage1 d ds, foldl_mergeStep_bit0 d ds, foldl_mergeStep_bit1 d ds,
    fun k hk => foldl_mergeStep_high d ds k hk, foldl_mergeStep_maxValue d ds⟩

/-- Witness for the amended C4 at a concrete two-duplicate group. -/
theorem sortAndMergeFeatures_group_witness :
    (∀ f ∈ [(⟨100, 3, ffGLOBAL ||| ffRandom, 3, 7, 9⟩ : FeatureInfo)],
      f.tag = (⟨100, 1, ffHasFallback, 0, 2, 4⟩ : FeatureInfo).tag) ∧
    mergeAdjacent ⟨100, 1, ffHasFallback, 0, 2, 4⟩
        [⟨100, 3, ffGLOBAL ||| ffRandom, 3, 7, 9⟩] =
      [List.foldl mergeStep ⟨100, 1, ffHasFallback, 0, 2, 4⟩
        [⟨100, 3, ffGLOBAL ||| ffRandom, 3, 7, 9⟩]] :=
  ⟨by decide,
    (sortAndMergeFeatures_group_characterisation _ _ (by decide)).1⟩

/-! ## C5: mask-bit allocation (part_000, otMapBuilder.compile) -/

/-- `otMapMaxBits = 8` (part_000:34). -/
def otMapMaxBits : Nat := 8

/-- `globalBitShift = 8*4 - 1` (part_000:127). -/
def globalBitShift : Nat := 8 * 4 - 1

/-- `globalBitMask = 1 << globalBitShift` (part_000:128). -/
def globalBitMask : Nat := 1 <<< globalBitShift

/-- Fuel-driven binary-digit count. -/
def bitStorageAux : Nat → Nat → Nat
  | 0, _ => 0
  | fuel + 1, v => if v = 0 then 0 else bitStorageAux fuel (v / 2) + 1

/-- Modelled from the spec: `bitStorage` — "bitsNeeded = min(8,
ceil(log2(maxValue+1)))" (§4.3), i.e. the number of binary digits of
`maxValue`; its defining file is not among the provided sources. -/
def bitStorage (v : Nat) : Nat := bitStorageAux v v

/-- `featureMap` (part_000:326-338), restricted to the fields the
allocation loop computes. -/
structure FeatureMap where
  tag : Nat
  shift : Nat
  mask : Nat
  mask1 : Nat
  needsFallback : Bool
  deriving DecidableEq, Repr

/-- `bitsNeeded` computation of the allocation loop (part_000:187-195):
zero for a global feature with `maxValue` 1 (it reuses the global bit),
otherwise `min(otMapMaxBits, bitStorage(maxValue))`. -/
def bitsNeededFor (info : FeatureInfo) : Nat :=
  if info.flags &&& ffGLOBAL ≠ 0 ∧ info.maxValue = 1 then 0
  else min otMapMaxBits (bitStorage info.maxValue)

/-- The bit-allocation loop of `otMapBuilder.compile` (part_000:182-248).
Each `featureInfo` is paired with the combined `found` outcome of the
GSUB/GPOS feature lookups (the font-table search, lines 205-217, is
abstracted as an input; the `requiredFeatureStage` bookkeeping of lines
206-208 affects no emitted map and is omitted).  Returns the emitted
feature maps, each paired with its source info, and the accumulated
`globalMask`. -/
def allocFeatureBits : Nat → Nat → List (FeatureInfo × Bool) →
    List ((FeatureInfo × Bool) × FeatureMap) × Nat
  | _, globalMask, [] => ([], globalMask)
  | nextBit, globalMask, (info, found) :: rest =>
    if info.maxValue = 0 ∨ nextBit + bitsNeededFor info ≥ globalBitShift then
      allocFeatureBits nextBit globalMask rest
    else if found = false ∧ info.flags &&& ffHasFallback = 0 then
      allocFeatureBits nextBit globalMask rest
    else if info.flags &&& ffGLOBAL ≠ 0 ∧ info.maxValue = 1 then
      let fm : FeatureMap :=
        ⟨info.tag, globalBitShift, globalBitMask,
          (1 <<< globalBitShift) &&& globalBitMask, !found⟩
      let r := allocFeatureBits nextBit globalMask rest
      (((info, found), fm) :: r.1, r.2)
    else
      let mask := (1 <<< (nextBit + bitsNeededFor info)) - (1 <<< nextBit)
      let fm : FeatureMap := ⟨info.tag, nextBit, mask, (1 <<< nextBit) &&& mask, !found⟩
      let r := allocFeatureBits (nextBit + bitsNeededFor info)
        (globalMask ||| ((info.defaultValue <<< nextBit) &&& mask)) rest
      (((info, found), fm) :: r.1, r.2)

/-- `nextBit` start value: `bits.OnesCount32(glyphFlagDefined) + 1`
(part_000:183); `glyphFlagDefined = 7` has 3 set bits, so 4. -/
def nextBitStart : Nat := 4

/-- The allocation phase of `compile`, with `m.globalMask` initialised
to `globalBitMask` (part_000:130). -/
def compileAllocate (infos : List (FeatureInfo × Bool)) :
    List ((FeatureInfo × Bool) × FeatureMap) × Nat :=
  allocFeatureBits nextBitStart globalBitMask infos

theorem intervalMask_eq_sub (s b : Nat) : intervalMask s b = 2 ^ (s + b) - 2 ^ s := by
  unfold intervalMask
  have h1 : (2:Nat) ^ s * 2 ^ b = 2 ^ (s + b) := (pow_add 2 s b).symm
  have h2 : (2:Nat) ^ s * (2 ^ b - 1) + 2 ^ s = 2 ^ s * 2 ^ b := by
    rw [← Nat.mul_succ]
    congr 1
    have := Nat.two_pow_pos b
    omega
  omega

theorem intervalMask_land_eq_zero {s b s' b' : Nat} (h : s + b ≤ s') :
    intervalMask s b &&& intervalMask s' b' = 0 := by
  apply Nat.eq_of_testBit_eq
  intro t
  rw [Nat.testBit_and, testBit_intervalMask, testBit_intervalMask, Nat.zero_testBit]
  rcases Nat.lt_or_ge t s' with hlt | hge
  · simp [show ¬ s' ≤ t by omega]
  · simp [show ¬ t < s + b by omega]

theorem globalBitMask_eq : globalBitMask = intervalMask globalBitShift 1 := by
  unfold globalBitMask globalBitShift intervalMask
  rw [Nat.one_shiftLeft]
  norm_num

/-- Masks emitted by the allocation loop: a global-bit entry carries
exactly the reserved top bit (and comes from a global feature with
`maxValue = 1`); an allocated entry is a contiguous run of at most 8
bits, at or above the running `nextBit` and strictly below bit 31. -/
theorem allocFeatureBits_shape (infos : List (FeatureInfo × Bool)) :
    ∀ (nb gm : Nat), ∀ p ∈ (allocFeatureBits nb gm infos).1,
      (p.2.shift = globalBitShift ∧ p.2.mask = globalBitMask ∧
        p.1.1.flags &&& ffGLOBAL ≠ 0 ∧ p.1.1.maxValue = 1) ∨
      (∃ b, b ≤ otMapMaxBits ∧ p.2.mask = intervalMask p.2.shift b ∧
        nb ≤ p.2.shift ∧ p.2.shift + b < globalBitShift) := by
  induction infos with
  | nil => intro nb gm p hp; cases hp
  | cons hd rest ih =>
    intro nb gm p hp
    obtain ⟨info, found⟩ := hd
    unfold allocFeatureBits at hp
    split at hp
    · exact ih nb gm p hp
    · next hguard =>
      split at hp
      · exact ih nb gm p hp
      · split at hp
        · next hglobal =>
          rcases List.mem_cons.mp hp with rfl | hp'
          · exact Or.inl ⟨rfl, rfl, hglobal.1, hglobal.2⟩
          · exact ih nb gm p hp'
        · next hnotglobal =>
          push_neg at hguard
          rcases List.mem_cons.mp hp with rfl | hp'
          · right
            refine ⟨bitsNeededFor info, ?_, ?_, Nat.le_refl _, ?_⟩
            · unfold bitsNeededFor
              rw [if_neg hnotglobal]
              exact Nat.min_le_left _ _
            · show (1 <<< (nb + bitsNeededFor info)) - (1 <<< nb) = _
              rw [Nat.one_shiftLeft, Nat.one_shiftLeft, intervalMask_eq_sub]
            · show nb + bitsNeededFor info < globalBitShift
              omega
          · rcases ih (nb + bitsNeededFor info) _ p hp' with hleft | ⟨b, hb1, hb2, hb3, hb4⟩
            · exact Or.inl hleft
            · exact Or.inr ⟨b, hb1, hb2, by omega, hb4⟩

/-- Pairwise disjointness of emitted masks, whenever at least one of the
two entries allocated its own bits (global-bit entries share bit 31 by
design). -/
theorem allocFeatureBits_pairwise (infos : List (FeatureInfo × Bool)) :
    ∀ (nb gm : Nat), ((allocFeatureBits nb gm infos).1).Pairwise
      (fun p q => (p.2.shift ≠ globalBitShift ∨ q.2.shift ≠ globalBitShift) →
        p.2.mask &&& q.2.mask = 0) := by
  induction infos with
  | nil => intro nb gm; exact List.Pairwise.nil
  | cons hd rest ih =>
    intro nb gm
    obtain ⟨info, found⟩ := hd
    unfold allocFeatureBits
    split
    · exact ih nb gm
    · next hguard =>
      split
      · exact ih nb gm
      · split
        · refine List.Pairwise.cons ?_ (ih nb gm)
          intro q hq hne
          rcases allocFeatureBits_shape rest nb gm q hq with ⟨hq1, hq2, _, _⟩ |
            ⟨b, hb1, hb2, hb3, hb4⟩
          · rcases hne with h | h
            · exact absurd rfl h
            · exact absurd hq1 h
          · show globalBitMask &&& q.2.mask = 0
            rw [hb2, globalBitMask_eq, Nat.land_comm]
            exact intervalMask_land_eq_zero (by omega)
        · next hnotglobal =>
          push_neg at hguard
          refine List.Pairwise.cons ?_ (ih (nb + bitsNeededFor info) _)
          intro q hq hne
          show ((1 <<< (nb + bitsNeededFor info)) - (1 <<< nb)) &&& q.2.mask = 0
          rw [show (1 <<< (nb + bitsNeededFor info)) - (1 <<< nb) =
              intervalMask nb (bitsNeededFor info) by
            rw [Nat.one_shiftLeft, Nat.one_shiftLeft, intervalMask_eq_sub]]
          rcases allocFeatureBits_shape rest (nb + bitsNeededFor info) _ q hq with
            ⟨_, hq2, _, _⟩ | ⟨b, hb1, hb2, hb3, hb4⟩
          · rw [hq2, globalBitMask_eq]
            exact intervalMask_land_eq_zero (by omega)
          · rw [hb2]
            exact intervalMask_land_eq_zero (by omega)

theorem subMask_iff {a b : Nat} :
    a ||| b = b ↔ (∀ i, a.testBit i = true → b.testBit i = true) := by
  constructor
  · intro h i hi
    have hcongr := congrArg (fun x => Nat.testBit x i) h
    simp only [Nat.testBit_or, hi, Bool.true_or] at hcongr
    exact hcongr.symm
  · intro h
    apply Nat.eq_of_testBit_eq
    intro i
    rw [Nat.testBit_or]
    cases ha : a.testBit i
    · simp
    · simp [h i ha]

/-- The accumulated `globalMask` absorbs the initial mask and every
default-value contribution `(defaultValue << shift) & mask` of an
allocated feature. -/
theorem allocFeatureBits_globalMask (infos : List (FeatureInfo × Bool)) :
    ∀ (nb gm : Nat),
      (gm ||| (allocFeatureBits nb gm infos).2 = (allocFeatureBits nb gm infos).2) ∧
      (∀ p ∈ (allocFeatureBits nb gm infos).1, p.2.shift ≠ globalBitShift →
        ((p.1.1.defaultValue <<< p.2.shift) &&& p.2.mask) |||
            (allocFeatureBits nb gm infos).2 = (allocFeatureBits nb gm infos).2) := by
  induction infos with
  | nil =>
    intro nb gm
    refine ⟨subMask_iff.mpr fun i hi => hi, ?_⟩
    intro p hp
    cases hp
  | cons hd rest ih =>
    intro nb gm
    obtain ⟨info, found⟩ := hd
    unfold allocFeatureBits
    split
    · exact ih nb gm
    · split
      · exact ih nb gm
      · split
        · refine ⟨(ih nb gm).1, ?_⟩
          intro p hp hne
          rcases List.mem_cons.mp hp with rfl | hp'
          · exact absurd rfl hne
          · exact (ih nb gm).2 p hp' hne
        · refine ⟨?_, ?_⟩
          · have h1 := (ih (nb + bitsNeededFor info)
              (gm ||| ((info.defaultValue <<< nb) &&&
                ((1 <<< (nb + bitsNeededFor info)) - (1 <<< nb))))).1
            exact subMask_iff.mpr fun i hi =>
              subMask_iff.mp h1 i (by rw [Nat.testBit_or, hi, Bool.true_or])
          · intro p hp hne
            rcases List.mem_cons.mp hp with rfl | hp'
            · have h1 := (ih (nb + bitsNeededFor info)
                (gm ||| ((info.defaultValue <<< nb) &&&
                  ((1 <<< (nb + bitsNeededFor info)) - (1 <<< nb))))).1
              exact subMask_iff.mpr fun i hi =>
                subMask_iff.mp h1 i (by rw [Nat.testBit_or, hi, Bool.or_true])
            · exact (ih (nb + bitsNeededFor info) _).2 p hp' hne

/-- **C5**: invariants of the mask-allocation phase of
`otMapBuilder.compile`: every emitted feature's mask is a contiguous
bit-field of at most 8 bits; the reserved top bit 31 appears in a mask
only for the global-bit entries, which come exactly from global features
with `maxValue = 1` and carry precisely `globalBitMask`; masks of
distinct entries are disjoint whenever at least one of them allocated
its own bits; and the final `globalMask` contains the initial global bit
and every allocated feature's default-value contribution
`(defaultValue << shift) & mask`. -/
theorem compileAllocate_invariants (infos : List (FeatureInfo × Bool)) :
    (∀ p ∈ (compileAllocate infos).1,
      ∃ b, b ≤ otMapMaxBits ∧ p.2.mask = intervalMask p.2.shift b) ∧
    (∀ p ∈ (compileAllocate infos).1, p.2.mask.testBit globalBitShift = true →
      p.2.mask = globalBitMask ∧ p.1.1.flags &&& ffGLOBAL ≠ 0 ∧ p.1.1.maxValue = 1) ∧
    ((compileAllocate infos).1).Pairwise
      (fun p q => (p.2.shift ≠ globalBitShift ∨ q.2.shift ≠ globalBitShift) →
        p.2.mask &&& q.2.mask = 0) ∧
    (globalBitMask ||| (compileAllocate infos).2 = (compileAllocate infos).2) ∧
    (∀ p ∈ (compileAllocate infos).1, p.2.shift ≠ globalBitShift →
      ((p.1.1.defaultValue <<< p.2.shift) &&& p.2.mask) ||| (compileAllocate infos).2 =
        (compileAllocate infos).2) := by
  refine ⟨?_, ?_, allocFeatureBits_pairwise infos nextBitStart globalBitMask,
    (allocFeatureBits_globalMask infos nextBitStart globalBitMask).1,
    (allocFeatureBits_globalMask infos nextBitStart globalBitMask).2⟩
  · intro p hp
    rcases allocFeatureBits_shape infos nextBitStart globalBitMask p hp with
      ⟨hshift, hmask, _, _⟩ | ⟨b, hb1, hb2, _, _⟩
    · exact ⟨1, by norm_num [otMapMaxBits], by rw [hmask, hshift, globalBitMask_eq]⟩
    · exact ⟨b, hb1, hb2⟩
  · intro p hp hbit
    rcases allocFeatureBits_shape infos nextBitStart globalBitMask p hp with
      ⟨_, hmask, hglob, hmax⟩ | ⟨b, _, hb2, _, hb4⟩
    · exact ⟨hmask, hglob, hmax⟩
    · rw [hb2, testBit_intervalMask] at hbit
      simp only [Bool.and_eq_true, decide_eq_true_eq] at hbit
      omega

/-- Witness for C5 at a concrete feature list: one global `maxValue = 1`
feature (takes the global bit), one non-global feature (allocates its
own bits), and one not-found feature without fallback (dropped). -/
theorem compileAllocate_invariants_witness :
    (∀ p ∈ (compileAllocate
        [(⟨10, 1, ffGLOBAL, 1, 0, 0⟩, true), (⟨20, 3, 0, 2, 0, 0⟩, true),
          (⟨30, 1, 0, 1, 0, 0⟩, false)]).1,
      ∃ b, b ≤ otMapMaxBits ∧ p.2.mask = intervalMask p.2.shift b) ∧
    (∀ p ∈ (compileAllocate
        [(⟨10, 1, ffGLOBAL, 1, 0, 0⟩, true), (⟨20, 3, 0, 2, 0, 0⟩, true),
          (⟨30, 1, 0, 1, 0, 0⟩, false)]).1,
      p.2.mask.testBit globalBitShift = true →
      p.2.mask = globalBitMask ∧ p.1.1.flags &&& ffGLOBAL ≠ 0 ∧ p.1.1.maxValue = 1) ∧
    ((compileAllocate
        [(⟨10, 1, ffGLOBAL, 1, 0, 0⟩, true), (⟨20, 3, 0, 2, 0, 0⟩, true),
          (⟨30, 1, 0, 1, 0, 0⟩, false)]).1).Pairwise
      (fun p q => (p.2.shift ≠ globalBitShift ∨ q.2.shift ≠ globalBitShift) →
        p.2.mask &&& q.2.mask = 0) ∧
    (globalBitMask ||| (compileAllocate
        [(⟨10, 1, ffGLOBAL, 1, 0, 0⟩, true), (⟨20, 3, 0, 2, 0, 0⟩, true),
          (⟨30, 1, 0, 1, 0, 0⟩, false)]).2 =
      (compileAllocate
        [(⟨10, 1, ffGLOBAL, 1, 0, 0⟩, true), (⟨20, 3, 0, 2, 0, 0⟩, true),
          (⟨30, 1, 0, 1, 0, 0⟩, false)]).2) ∧
    (∀ p ∈ (compileAllocate
        [(⟨10, 1, ffGLOBAL, 1, 0, 0⟩, true), (⟨20, 3, 0, 2, 0, 0⟩, true),
          (⟨30, 1, 0, 1, 0, 0⟩, false)]).1,
      p.2.shift ≠ globalBitShift →
      ((p.1.1.defaultValue <<< p.2.shift) &&& p.2.mask) |||
          (compileAllocate
        [(⟨10, 1, ffGLOBAL, 1, 0, 0⟩, true), (⟨20, 3, 0, 2, 0, 0⟩, true),
          (⟨30, 1, 0, 1, 0, 0⟩, false)]).2 =
        (compileAllocate
        [(⟨10, 1, ffGLOBAL, 1, 0, 0⟩, true), (⟨20, 3, 0, 2, 0, 0⟩, true),
          (⟨30, 1, 0, 1, 0, 0⟩, false)]).2) :=
  compileAllocate_invariants
    [(⟨10, 1, ffGLOBAL, 1, 0, 0⟩, true), (⟨20, 3, 0, 2, 0, 0⟩, true),
      (⟨30, 1, 0, 1, 0, 0⟩, false)]

/-! ## C7: mark attachment (harfbuzz/ot_layout_gpos.go, applyGPOSMarks) -/

/-- `GlyphPosition` (glyph.go:16-35).  `attachChain` is declared `int16`
in the source; it is embedded in `Int`, every stored value having the
int16 wrap (`toInt16`) applied where the source converts. -/
structure GlyphPosition where
  xAdvance : Int
  yAdvance : Int
  xOffset : Int
  yOffset : Int
  attachChain : Int
  attachType : Nat
  deriving DecidableEq, Repr, Inhabited

/-- `attachTypeMark = 0x01` (ot_layout_gpos.go:47). -/
def attachTypeMark : Nat := 1

/-- Go's `int16(x)` conversion: the two's-complement reduction of `x`
modulo `2^16 = 65536` into `[-32768, 32768)`. -/
def toInt16 (x : Int) : Int := (x + 32768) % 65536 - 32768

theorem toInt16_eq_self (x : Int) (h1 : -32768 ≤ x) (h2 : x < 32768) :
    toInt16 x = x := by
  unfold toInt16
  omega

/-- Modelled from the spec: `roundf` — "set offset = base-anchor −
mark-anchor" with rounding (§4.5, scenario 5); its defining file is not
among the provided sources.  Rounds to the nearest integer. -/
def roundf (x : ℚ) : Int := round x

/-- Generic index walker: applies `f` to the glyphs at positions in
`[a, b)`, starting at index `i`. -/
def applyRange (f : GlyphInfo → GlyphInfo) (a b : Nat) : Nat → List GlyphInfo → List GlyphInfo
  | _, [] => []
  | i, g :: rest => (if a ≤ i ∧ i < b then f g else g) :: applyRange f a b (i + 1) rest

/-- Modelled from the spec: the buffer operation `unsafeToBreak(a,b)`
(§4.1) — ORs the `UnsafeToBreak` and `UnsafeToConcat` flag bits into the
glyph masks of the range `[a,b)` (glyph.go: "The GlyphUnsafeToBreak flag
will always imply this flag"); its defining file is not among the
provided sources. -/
def bufferUnsafeToBreak (a b : Nat) (info : List GlyphInfo) : List GlyphInfo :=
  applyRange
    (fun g => { g with mask := g.mask ||| (GlyphUnsafeToBreak ||| GlyphUnsafeToConcat) })
    a b 0 info

/-- The buffer fields touched by `applyGPOSMarks`. -/
structure PosBuffer where
  idx : Nat
  info : List GlyphInfo
  pos : List GlyphPosition
  scratchFlags : Nat
  deriving DecidableEq, Repr

/-- `otApplyContext.applyGPOSMarks` (ot_layout_gpos.go:499-524).  The
mark array is given as its lists of mark classes and mark anchors;
`anchors glyphIndex class` is `AnchorMatrix.Anchor` (a nil anchor is
`none`); `getAnchor` results are abstracted as rational coordinate
pairs. -/
def applyGPOSMarks (markClasses : List Nat) (markAnchors : List (ℚ × ℚ))
    (markIndex glyphIndex : Nat) (anchors : Nat → Nat → Option (ℚ × ℚ))
    (glyphPos : Nat) (buffer : PosBuffer) : Bool × PosBuffer :=
  let markClass := markClasses.getD markIndex 0
  let markAnchor := markAnchors.getD markIndex (0, 0)
  match anchors glyphIndex markClass with
  | none => (false, buffer)
  | some glyphAnchor =>
    let info1 := bufferUnsafeToBreak glyphPos (buffer.idx + 1) buffer.info
    let old := buffer.pos.getD buffer.idx default
    let o : GlyphPosition :=
      { old with
        xOffset := roundf (glyphAnchor.1 - markAnchor.1)
        yOffset := roundf (glyphAnchor.2 - markAnchor.2)
        attachType := attachTypeMark
        attachChain := toInt16 ((glyphPos : Int) - (buffer.idx : Int)) }
    (true,
      { idx := buffer.idx + 1
        info := info1
        pos := buffer.pos.set buffer.idx o
        scratchFlags := buffer.scratchFlags ||| bsfHasGPOSAttachment })

theorem getD_set_self (l : List GlyphPosition) (i : Nat) (x d : GlyphPosition)
    (h : i < l.length) : (l.set i x).getD i d = x := by
  induction l generalizing i with
  | nil => simp at h
  | cons g rest ih =>
    cases i with
    | zero => rfl
    | succ j =>
      simp only [List.set_cons_succ, List.getD_cons_succ]
      exact ih j (by simpa using h)

/-- **C7** (amended): when a mark attaches by Mark-to-Base,
Mark-to-Ligature or Mark-to-Mark positioning (all three call
`applyGPOSMarks` with the resolved base/ligature/mark index) and the
anchor matrix has an anchor for the resolved glyph and the mark's class,
then the call succeeds and the mark glyph's x/y offset is set to
base-anchor minus mark-anchor (rounded), its attach-type to mark, and
its attach-chain to `int16(glyphPos - buffer.idx)` — the signed distance
from the mark (at `buffer.idx`) to its parent (at `glyphPos`) reduced
into `[-32768, 32768)`, which equals the true signed distance exactly
when that distance fits in int16; the buffer index advances and the
GPOS-attachment scratch flag is set. -/
theorem applyGPOSMarks_attaches (markClasses : List Nat) (markAnchors : List (ℚ × ℚ))
    (markIndex glyphIndex : Nat) (anchors : Nat → Nat → Option (ℚ × ℚ))
    (glyphPos : Nat) (buffer : PosBuffer) (ga : ℚ × ℚ)
    (hanchor : anchors glyphIndex (markClasses.getD markIndex 0) = some ga)
    (hidx : buffer.idx < buffer.pos.length) :
    (applyGPOSMarks markClasses markAnchors markIndex glyphIndex anchors glyphPos
        buffer).1 = true ∧
    (((applyGPOSMarks markClasses markAnchors markIndex glyphIndex anchors glyphPos
        buffer).2.pos.getD buffer.idx default).xOffset =
      roundf (ga.1 - (markAnchors.getD markIndex (0, 0)).1)) ∧
    (((applyGPOSMarks markClasses markAnchors markIndex glyphIndex anchors glyphPos
        buffer).2.pos.getD buffer.idx default).yOffset =
      roundf (ga.2 - (markAnchors.getD markIndex (0, 0)).2)) ∧
    (((applyGPOSMarks markClasses markAnchors markIndex glyphIndex anchors glyphPos
        buffer).2.pos.getD buffer.idx default).attachType = attachTypeMark) ∧
    (((applyGPOSMarks markClasses markAnchors markIndex glyphIndex anchors glyphPos
        buffer).2.pos.getD buffer.idx default).attachChain =
      toInt16 ((glyphPos : Int) - (buffer.idx : Int))) ∧
    (-32768 ≤ (glyphPos : Int) - (buffer.idx : Int) →
      (glyphPos : Int) - (buffer.idx : Int) < 32768 →
      ((applyGPOSMarks markClasses markAnchors markIndex glyphIndex anchors glyphPos
        buffer).2.pos.getD buffer.idx default).attachChain =
        (glyphPos : Int) - (buffer.idx : Int)) ∧
    ((applyGPOSMarks markClasses markAnchors markIndex glyphIndex anchors glyphPos
        buffer).2.idx = buffer.idx + 1) ∧
    ((applyGPOSMarks markClasses markAnchors markIndex glyphIndex anchors glyphPos
        buffer).2.scratchFlags &&& bsfHasGPOSAttachment ≠ 0) := by
  have h4 : bsfHasGPOSAttachment = 2 ^ 2 := by norm_num [bsfHasGPOSAttachment]
  simp only [applyGPOSMarks]
  rw [hanchor]
  refine ⟨rfl, ?_, ?_, ?_, ?_, ?_, rfl, ?_⟩
  · rw [getD_set_self _ _ _ _ hidx]
  · rw [getD_set_self _ _ _ _ hidx]
  · rw [getD_set_self _ _ _ _ hidx]
  · rw [getD_set_self _ _ _ _ hidx]
  · intro hlo hhi
    rw [getD_set_self _ _ _ _ hidx]
    exact toInt16_eq_self _ hlo hhi
  · show (buffer.scratchFlags ||| bsfHasGPOSAttachment) &&& bsfHasGPOSAttachment ≠ 0
    rw [h4]
    exact land_two_pow_ne_zero_iff.mpr (testBit_or_right Nat.testBit_two_pow_self)

/-- Witness for C7 at a concrete input. -/
theorem applyGPOSMarks_attaches_witness :
    ((fun _ _ => some ((5, 7/2) : ℚ × ℚ)) 0 ([2].getD 0 0) = some ((5:ℚ), (7/2:ℚ))) ∧
    ((0:Nat) < ([default] : List GlyphPosition).length) ∧
    (((applyGPOSMarks [2] [(1, 1/2)] 0 0 (fun _ _ => some (5, 7/2)) 3
        ⟨0, [ignorableGlyph], [default], 0⟩).2.pos.getD 0 default).xOffset =
      roundf ((5:ℚ) - ([((1:ℚ), (1/2:ℚ))].getD 0 (0, 0)).1)) ∧
    (((applyGPOSMarks [2] [(1, 1/2)] 0 0 (fun _ _ => some (5, 7/2)) 3
        ⟨0, [ignorableGlyph], [default], 0⟩).2.pos.getD 0 default).attachChain =
      ((3:Nat) : Int) - ((0:Nat) : Int)) := by
  have h := applyGPOSMarks_attaches [2] [(1, 1/2)] 0 0 (fun _ _ => some (5, 7/2)) 3
    ⟨0, [ignorableGlyph], [default], 0⟩ (5, 7/2) rfl (by decide)
  exact ⟨rfl, by decide, h.2.1, h.2.2.2.2.2.1 (by decide) (by decide)⟩

/-- Counterexample to the claim's unbounded attach-chain: `attachChain`
is `int16` (glyph.go:33) and the store `int16(glyphPos - buffer.idx)`
(ot_layout_gpos.go:519) wraps; at distance `-32769` (mark at index
32769, parent at 0 — reachable, since `maxLen = max(64*len, 16384)`
admits buffers longer than `2^15` and the backward parent search is
uncapped) the stored chain is `32767`, not the signed distance. -/
theorem applyGPOSMarks_attachChain_wraps_counterexample :
    ((applyGPOSMarks [2] [(0, 0)] 0 0 (fun _ _ => some (0, 0)) 0
        ⟨32769, [], List.replicate 32770 default, 0⟩).2.pos.getD 32769
        default).attachChain ≠ ((0 : Nat) : Int) - ((32769 : Nat) : Int) := by
  simp only [applyGPOSMarks]
  rw [getD_set_self _ _ _ _ (by rw [List.length_replicate]; omega)]
  decide

/-! ## C8: Khmer consonant-syllable reordering
(harfbuzz/ot_layout_gpos.go, khmerShapePlan.reorderConsonantSyllable) -/

/-- Modelled from the spec: the Khmer category code `H` (Coeng/halant,
`khmSM_ex_H`); the state-machine file defining the codes is not among
the provided sources.  Only distinctness of the codes matters. -/
def khmH : Nat := 1

/-- Modelled from the spec: the Khmer category code `Ra` (`khmSM_ex_Ra`). -/
def khmRa : Nat := 2

/-- Modelled from the spec: the Khmer category code `VPre` (left matra,
`khmSM_ex_VPre`). -/
def khmVPre : Nat := 3

/-- The minimum cluster value of a glyph run (0 for an empty run). -/
def minClusterOf : List GlyphInfo → Nat
  | [] => 0
  | g :: rest => rest.foldl (fun acc x => min acc x.cluster) g.cluster

/-- The minimum cluster value found in `[a, b)`. -/
def sliceMinCluster (info : List GlyphInfo) (a b : Nat) : Nat :=
  minClusterOf ((info.drop a).take (b - a))

/-- Modelled from the spec: `mergeClusters(a,b)` — "sets every cluster
value in `[a,b)` to the minimum found there" (§4.1); the buffer file
defining it is not among the provided sources. -/
def mergeClusters (info : List GlyphInfo) (a b : Nat) : List GlyphInfo :=
  applyRange (fun g => { g with cluster := sliceMinCluster info a b }) a b 0 info

/-- In-place update of the glyph at one index. -/
def modifyAt (f : GlyphInfo → GlyphInfo) : Nat → List GlyphInfo → List GlyphInfo
  | _, [] => []
  | 0, g :: rest => f g :: rest
  | i + 1, g :: rest => g :: modifyAt f i rest

/-- `info[i].Mask |= m` on the glyph list. -/
def orMaskAt (m i : Nat) (info : List GlyphInfo) : List GlyphInfo :=
  modifyAt (fun g => { g with mask := g.mask ||| m }) i info

/-- The scanning loop of `reorderConsonantSyllable`
(ot_layout_gpos.go:858-909), on the syllable slice (`start = 0`,
`end = info.length`), with fuel bounding the loop counter `i` (the list
length never changes, so `info.length` steps suffice).  A Coeng (`H`)
followed by `Ra` within the first coengs (`numCoengs <= 2`) is tagged
with `pref`, clusters over `[0, i+2)` are merged, the pair is moved to
the front, and the following glyphs are tagged with `cfar`; a `VPre`
glyph is merged over `[0, i+1)` and moved to the front. -/
def khmerScan (pref cfar : Nat) : Nat → Nat → Nat → List GlyphInfo → List GlyphInfo
  | 0, _, _, info => info
  | fuel + 1, i, numCoengs, info =>
    if i < info.length then
      if (info.getD i default).complexCategory = khmH ∧ numCoengs ≤ 2 ∧
          i + 1 < info.length then
        if (info.getD (i + 1) default).complexCategory = khmRa then
          let info1 := orMaskAt pref (i + 1) (orMaskAt pref i info)
          let info2 := mergeClusters info1 0 (i + 2)
          let info3 := info2.getD i default :: info2.getD (i + 1) default ::
            (info2.take i ++ info2.drop (i + 2))
          let info4 :=
            if cfar ≠ 0 then
              applyRange (fun g => { g with mask := g.mask ||| cfar }) (i + 2)
                info3.length 0 info3
            else info3
          khmerScan pref cfar fuel (i + 1) 2 info4
        else khmerScan pref cfar fuel (i + 1) (numCoengs + 1) info
      else if (info.getD i default).complexCategory = khmVPre then
        let info1 := mergeClusters info 0 (i + 1)
        let info2 := info1.getD i default :: (info1.take i ++ info1.drop (i + 1))
        khmerScan pref cfar fuel (i + 1) numCoengs info2
      else khmerScan pref cfar fuel (i + 1) numCoengs info
    else info

/-- The post-base mask setup of `reorderConsonantSyllable`
(ot_layout_gpos.go:847-856): every glyph after the first gets the
combined `blwf|abvf|pstf` mask `pm`. -/
def khmerPostBaseMask (pm : Nat) : List GlyphInfo → List GlyphInfo
  | [] => []
  | g :: rest => g :: rest.map fun x => { x with mask := x.mask ||| pm }

/-- `khmerShapePlan.reorderConsonantSyllable` (ot_layout_gpos.go:844-910)
on the syllable slice, with `pm` the OR of the `blwf`, `abvf` and `pstf`
masks, `pref` the `pref` mask and `cfar` the `cfar` mask from the plan's
mask array. -/
def reorderConsonantSyllable (pm pref cfar : Nat) (info : List GlyphInfo) :
    List GlyphInfo :=
  khmerScan pref cfar info.length 1 0 (khmerPostBaseMask pm info)

/-! ### Structural helper lemmas for C8 -/

theorem applyRange_append (f : GlyphInfo → GlyphInfo) (a b : Nat) (P S : List GlyphInfo)
    (i : Nat) : applyRange f a b i (P ++ S) =
      applyRange f a b i P ++ applyRange f a b (i + P.length) S := by
  induction P generalizing i with
  | nil => simp [applyRange]
  | cons g rest ih =>
    simp only [List.cons_append, applyRange, List.length_cons, List.append_eq]
    rw [ih]
    congr 3
    omega

theorem applyRange_all (f : GlyphInfo → GlyphInfo) (a b : Nat) (L : List GlyphInfo)
    (i : Nat) (h1 : a ≤ i) (h2 : i + L.length ≤ b) :
    applyRange f a b i L = L.map f := by
  induction L generalizing i with
  | nil => rfl
  | cons g rest ih =>
    simp only [List.length_cons] at h2
    simp only [applyRange, List.map_cons]
    rw [if_pos ⟨h1, by omega⟩, ih (i + 1) (by omega) (by omega)]

theorem applyRange_none (f : GlyphInfo → GlyphInfo) (a b : Nat) (L : List GlyphInfo)
    (i : Nat) (h : b ≤ i) : applyRange f a b i L = L := by
  induction L generalizing i with
  | nil => rfl
  | cons g rest ih =>
    simp only [applyRange]
    rw [if_neg (by omega), ih (i + 1) (by omega)]

theorem applyRange_before (f : GlyphInfo → GlyphInfo) (a b : Nat) (L : List GlyphInfo)
    (i : Nat) (h : i + L.length ≤ a) : applyRange f a b i L = L := by
  induction L generalizing i with
  | nil => rfl
  | cons g rest ih =>
    simp only [List.length_cons] at h
    simp only [applyRange]
    rw [if_neg (by omega), ih (i + 1) (by omega)]

theorem getD_append_length (P : List GlyphInfo) (g : GlyphInfo) (S : List GlyphInfo)
    (d : GlyphInfo) : (P ++ g :: S).getD P.length d = g := by
  induction P with
  | nil => rfl
  | cons p rest ih =>
    simp only [List.cons_append, List.length_cons, List.getD_cons_succ]
    exact ih

theorem modifyAt_append_length (f : GlyphInfo → GlyphInfo) (P : List GlyphInfo)
    (g : GlyphInfo) (S : List GlyphInfo) :
    modifyAt f P.length (P ++ g :: S) = P ++ f g :: S := by
  induction P with
  | nil => rfl
  | cons p rest ih =>
    simp only [List.cons_append, List.length_cons, modifyAt, List.append_eq]
    rw [ih]

def minNatList : List Nat → Nat
  | [] => 0
  | c :: cs => cs.foldl min c

theorem minClusterOf_eq_minNatList (l : List GlyphInfo) :
    minClusterOf l = minNatList (l.map GlyphInfo.cluster) := by
  cases l with
  | nil => rfl
  | cons g rest =>
    simp only [minClusterOf, minNatList, List.map_cons]
    rw [List.foldl_map]

theorem getD_append_left (P S : List GlyphInfo) (d : GlyphInfo) (k : Nat)
    (h : k < P.length) : (P ++ S).getD k d = P.getD k d := by
  induction P generalizing k with
  | nil => simp at h
  | cons p rest ih =>
    cases k with
    | zero => rfl
    | succ n =>
      simp only [List.cons_append, List.getD_cons_succ]
      simp only [List.length_cons] at h
      exact ih n (by omega)

theorem getD_mem_of_lt (l : List GlyphInfo) (d : GlyphInfo) (k : Nat)
    (h : k < l.length) : l.getD k d ∈ l := by
  rw [List.getD_eq_getElem l d h]
  exact List.getElem_mem h

theorem khmerScan_oob (pref cfar fuel i nc : Nat) (info : List GlyphInfo)
    (h : info.length ≤ i) : khmerScan pref cfar fuel i nc info = info := by
  cases fuel with
  | zero => rfl
  | succ g =>
    simp only [khmerScan]
    rw [if_neg (by omega)]

theorem khmerScan_skip (pref cfar : Nat) (fuel : Nat) : ∀ (i nc : Nat)
    (info : List GlyphInfo),
    (∀ j, i ≤ j → j < info.length →
      (info.getD j default).complexCategory ≠ khmH ∧
      (info.getD j default).complexCategory ≠ khmVPre) →
    khmerScan pref cfar fuel i nc info = info := by
  induction fuel with
  | zero => intro i nc info _; rfl
  | succ g ih =>
    intro i nc info h
    simp only [khmerScan]
    by_cases hi : i < info.length
    · rw [if_pos hi, if_neg (fun hc => (h i le_rfl hi).1 hc.1),
        if_neg (h i le_rfl hi).2]
      exact ih (i + 1) nc info (fun j hj1 hj2 => h j (by omega) hj2)
    · rw [if_neg hi]

theorem khmerScan_walk (pref cfar : Nat) (n : Nat) : ∀ (fuel i nc : Nat)
    (info : List GlyphInfo),
    (∀ j, i ≤ j → j < i + n →
      (info.getD j default).complexCategory ≠ khmH ∧
      (info.getD j default).complexCategory ≠ khmVPre) →
    khmerScan pref cfar (fuel + n) i nc info =
      khmerScan pref cfar fuel (i + n) nc info := by
  induction n with
  | zero => intro fuel i nc info _; rfl
  | succ k ih =>
    intro fuel i nc info h
    rw [show fuel + (k + 1) = (fuel + k) + 1 from rfl]
    simp only [khmerScan]
    by_cases hi : i < info.length
    · rw [if_pos hi, if_neg (fun hc => (h i le_rfl (by omega)).1 hc.1),
        if_neg (h i le_rfl (by omega)).2,
        ih fuel (i + 1) nc info (fun j hj1 hj2 => h j (by omega) (by omega)),
        show i + 1 + k = i + (k + 1) by omega]
    · rw [if_neg hi, khmerScan_oob _ _ _ _ _ _ (by omega)]

theorem khmerScan_step_H (pref cfar fuel i nc : Nat) (info M info3 : List GlyphInfo)
    (hM : M = mergeClusters (orMaskAt pref (i + 1) (orMaskAt pref i info)) 0 (i + 2))
    (hI3 : info3 = M.getD i default :: M.getD (i + 1) default ::
      (M.take i ++ M.drop (i + 2)))
    (h1 : i < info.length)
    (h2 : (info.getD i default).complexCategory = khmH) (h3 : nc ≤ 2)
    (h4 : i + 1 < info.length)
    (h5 : (info.getD (i + 1) default).complexCategory = khmRa) (h6 : cfar ≠ 0) :
    khmerScan pref cfar (fuel + 1) i nc info =
      khmerScan pref cfar fuel (i + 1) 2
        (applyRange (fun g => { g with mask := g.mask ||| cfar }) (i + 2)
          info3.length 0 info3) := by
  subst hM
  subst hI3
  simp only [khmerScan]
  rw [if_pos h1, if_pos ⟨h2, h3, h4⟩, if_pos h5, if_pos h6]

theorem khmerScan_step_VPre (pref cfar fuel i nc : Nat) (info M : List GlyphInfo)
    (hM : M = mergeClusters info 0 (i + 1))
    (h1 : i < info.length)
    (hnotH : ¬((info.getD i default).complexCategory = khmH ∧ nc ≤ 2 ∧
      i + 1 < info.length))
    (hV : (info.getD i default).complexCategory = khmVPre) :
    khmerScan pref cfar (fuel + 1) i nc info =
      khmerScan pref cfar fuel (i + 1) nc
        (M.getD i default :: (M.take i ++ M.drop (i + 1))) := by
  subst hM
  simp only [khmerScan]
  rw [if_pos h1, if_neg hnotH, if_pos hV]

theorem reorderKhmer_coengRa (pm pref cfar : Nat) (a0 h r : GlyphInfo)
    (A B : List GlyphInfo) (hc : cfar ≠ 0)
    (hH : h.complexCategory = khmH) (hR : r.complexCategory = khmRa)
    (hns : ∀ g ∈ a0 :: (A ++ B),
      g.complexCategory ≠ khmH ∧ g.complexCategory ≠ khmVPre) :
    reorderConsonantSyllable pm pref cfar (a0 :: (A ++ h :: r :: B)) =
      { h with mask := h.mask ||| pm ||| pref,
               cluster := minClusterOf (a0 :: (A ++ [h, r])) } ::
      { r with mask := r.mask ||| pm ||| pref,
               cluster := minClusterOf (a0 :: (A ++ [h, r])) } ::
      (({ a0 with cluster := minClusterOf (a0 :: (A ++ [h, r])) } ::
        A.map (fun g => { g with mask := g.mask ||| pm, cluster := minClusterOf (a0 :: (A ++ [h, r])) })) ++
       B.map (fun g => { g with mask := g.mask ||| pm ||| cfar })) := by
  have ha0 : a0.complexCategory ≠ khmH ∧ a0.complexCategory ≠ khmVPre :=
    hns a0 (List.mem_cons_self _ _)
  have hA1 : ∀ g ∈ A, g.complexCategory ≠ khmH ∧ g.complexCategory ≠ khmVPre :=
    fun g hg => hns g (List.mem_cons_of_mem _ (List.mem_append_left _ hg))
  have hB1 : ∀ g ∈ B, g.complexCategory ≠ khmH ∧ g.complexCategory ≠ khmVPre :=
    fun g hg => hns g (List.mem_cons_of_mem _ (List.mem_append_right _ hg))
  rw [reorderConsonantSyllable]
  have hP0 : khmerPostBaseMask pm (a0 :: (A ++ h :: r :: B)) =
      a0 :: (A.map (fun g => { g with mask := g.mask ||| pm }) ++
        { h with mask := h.mask ||| pm } :: { r with mask := r.mask ||| pm } ::
        B.map (fun g => { g with mask := g.mask ||| pm })) := by
    simp only [khmerPostBaseMask, List.map_append, List.map_cons]
  rw [hP0]
  set m := minClusterOf (a0 :: (A ++ [h, r])) with hm
  set AF := A.map (fun g => { g with mask := g.mask ||| pm }) with hAF
  set BF := B.map (fun g => { g with mask := g.mask ||| pm }) with hBF
  set hh := { h with mask := h.mask ||| pm } with hhdef
  set rr := { r with mask := r.mask ||| pm } with hrrdef
  have hlen : (a0 :: (A ++ h :: r :: B)).length = (B.length + 3) + A.length := by
    simp only [List.length_cons, List.length_append]
    omega
  rw [hlen]
  have hwalk : ∀ j, 1 ≤ j → j < 1 + A.length →
      (((a0 :: (AF ++ hh :: rr :: BF)).getD j default).complexCategory ≠ khmH ∧
       ((a0 :: (AF ++ hh :: rr :: BF)).getD j default).complexCategory ≠ khmVPre) := by
    intro j hj1 hj2
    obtain ⟨k, rfl⟩ : ∃ k, j = k + 1 := ⟨j - 1, by omega⟩
    rw [List.getD_cons_succ]
    rw [getD_append_left _ _ _ k (by rw [hAF, List.length_map]; omega)]
    have hmem := getD_mem_of_lt AF default k (by rw [hAF, List.length_map]; omega)
    rw [hAF] at hmem
    obtain ⟨a, haA, hae⟩ := List.mem_map.mp hmem
    rw [hAF, ← hae]
    exact ⟨(hA1 a haA).1, (hA1 a haA).2⟩
  rw [khmerScan_walk pref cfar A.length (B.length + 3) 1 0 _ hwalk]
  rw [show 1 + A.length = A.length + 1 from Nat.add_comm 1 A.length]
  have hlenL : (a0 :: (AF ++ hh :: rr :: BF)).length = A.length + B.length + 3 := by
    simp only [List.length_cons, List.length_append, hAF, hBF, List.length_map]
    omega
  have hgi : (a0 :: (AF ++ hh :: rr :: BF)).getD (A.length + 1) default = hh := by
    rw [show (a0 :: (AF ++ hh :: rr :: BF) : List GlyphInfo) =
      (a0 :: AF) ++ hh :: (rr :: BF) from rfl]
    rw [show A.length + 1 = (a0 :: AF).length by
      rw [List.length_cons, hAF, List.length_map]]
    exact getD_append_length _ _ _ _
  have hgi1 : (a0 :: (AF ++ hh :: rr :: BF)).getD (A.length + 1 + 1) default = rr := by
    rw [show (a0 :: (AF ++ hh :: rr :: BF) : List GlyphInfo) =
      (a0 :: AF) ++ hh :: (rr :: BF) from rfl, List.append_cons]
    rw [show A.length + 1 + 1 = ((a0 :: AF) ++ [hh]).length by
      simp only [List.length_append, List.length_cons, hAF, List.length_map,
        List.length_nil]]
    exact getD_append_length _ _ _ _
  rw [show B.length + 3 = (B.length + 2) + 1 by omega]
  rw [khmerScan_step_H pref cfar (B.length + 2) (A.length + 1) 0 _ _ _ rfl rfl
    (by rw [hlenL]; omega)
    (by rw [hgi]; exact hH) (by omega)
    (by rw [hlenL]; omega)
    (by rw [hgi1]; exact hR) hc]
  have horM1 : orMaskAt pref (A.length + 1) (a0 :: (AF ++ hh :: rr :: BF)) =
      (a0 :: AF) ++ { h with mask := h.mask ||| pm ||| pref } :: (rr :: BF) := by
    simp only [orMaskAt]
    rw [show (a0 :: (AF ++ hh :: rr :: BF) : List GlyphInfo) =
      (a0 :: AF) ++ hh :: (rr :: BF) from rfl]
    rw [show A.length + 1 = (a0 :: AF).length by
      rw [List.length_cons, hAF, List.length_map]]
    rw [modifyAt_append_length]
  rw [horM1]
  set hph := { h with mask := h.mask ||| pm ||| pref } with hphdef
  have horM2 : orMaskAt pref (A.length + 1 + 1) ((a0 :: AF) ++ hph :: (rr :: BF)) =
      ((a0 :: AF) ++ [hph]) ++ { r with mask := r.mask ||| pm ||| pref } :: BF := by
    simp only [orMaskAt]
    rw [List.append_cons (a0 :: AF) hph (rr :: BF)]
    rw [show A.length + 1 + 1 = ((a0 :: AF) ++ [hph]).length by
      simp only [List.length_append, List.length_cons, List.length_nil, hAF,
        List.length_map]]
    rw [modifyAt_append_length]
  rw [horM2]
  set rpr := { r with mask := r.mask ||| pm ||| pref } with hrprdef
  have hT'len : ((((a0 : GlyphInfo) :: AF) ++ [hph]) ++ [rpr]).length =
      A.length + 1 + 2 := by
    simp only [List.length_append, List.length_cons, List.length_nil, hAF,
      List.length_map]
  have hslice : sliceMinCluster (((a0 :: AF) ++ [hph]) ++ rpr :: BF) 0
      (A.length + 1 + 2) = m := by
    simp only [sliceMinCluster, List.drop_zero, Nat.sub_zero]
    rw [List.append_cons ((a0 :: AF) ++ [hph]) rpr BF]
    rw [show A.length + 1 + 2 = ((((a0 : GlyphInfo) :: AF) ++ [hph]) ++ [rpr]).length
      from hT'len.symm]
    rw [List.take_left]
    rw [hm, minClusterOf_eq_minNatList, minClusterOf_eq_minNatList]
    congr 1
    simp only [hAF, hphdef, hrprdef, List.map_append, List.map_cons, List.map_nil,
      List.map_map]
    rw [List.append_assoc, List.singleton_append]
    rfl
  have hMeq : mergeClusters (((a0 :: AF) ++ [hph]) ++ rpr :: BF) 0
      (A.length + 1 + 2) =
      ((({ a0 with cluster := m } :: AF.map (fun g => { g with cluster := m })) ++
        [{ hph with cluster := m }]) ++ [{ rpr with cluster := m }]) ++ BF := by
    simp only [mergeClusters]
    rw [hslice]
    rw [List.append_cons ((a0 :: AF) ++ [hph]) rpr BF]
    rw [applyRange_append]
    rw [applyRange_all _ _ _ _ _ (Nat.le_refl 0) (by rw [hT'len]; omega)]
    rw [applyRange_none _ _ _ _ _ (by rw [hT'len]; omega)]
    simp only [List.map_append, List.map_cons, List.map_nil]
  rw [hMeq]
  set P := ({ a0 with cluster := m } :: AF.map (fun g => { g with cluster := m }))
    with hPdef
  have hPlen : P.length = A.length + 1 := by
    rw [hPdef]
    simp only [List.length_cons, hAF, List.length_map]
  have hQ1len : (P ++ [{ hph with cluster := m }]).length = A.length + 1 + 1 := by
    rw [List.length_append, hPlen]
    rfl
  have hQ2len : ((P ++ [{ hph with cluster := m }]) ++
      [{ rpr with cluster := m }]).length = A.length + 1 + 2 := by
    rw [List.length_append, hQ1len]
    rfl
  have hregroup : ((P ++ [{ hph with cluster := m }]) ++
      [{ rpr with cluster := m }]) ++ BF =
      P ++ { hph with cluster := m } :: { rpr with cluster := m } :: BF := by
    rw [List.append_assoc, List.singleton_append, List.append_assoc,
      List.singleton_append]
  have hMgi : (((P ++ [{ hph with cluster := m }]) ++
      [{ rpr with cluster := m }]) ++ BF).getD (A.length + 1) default =
      { hph with cluster := m } := by
    rw [hregroup, ← hPlen]
    exact getD_append_length _ _ _ _
  have hMgi1 : (((P ++ [{ hph with cluster := m }]) ++
      [{ rpr with cluster := m }]) ++ BF).getD (A.length + 1 + 1) default =
      { rpr with cluster := m } := by
    rw [List.append_assoc, List.singleton_append, ← hQ1len]
    exact getD_append_length _ _ _ _
  have hMtake : (((P ++ [{ hph with cluster := m }]) ++
      [{ rpr with cluster := m }]) ++ BF).take (A.length + 1) = P := by
    rw [hregroup, ← hPlen]
    exact List.take_left _ _
  have hMdrop : (((P ++ [{ hph with cluster := m }]) ++
      [{ rpr with cluster := m }]) ++ BF).drop (A.length + 1 + 2) = BF := by
    rw [← hQ2len]
    exact List.drop_left _ _
  rw [hMgi, hMgi1, hMtake, hMdrop]
  have hBFlen : BF.length = B.length := by rw [hBF, List.length_map]
  have happ : applyRange (fun g => { g with mask := g.mask ||| cfar })
      (A.length + 1 + 2)
      (({ hph with cluster := m } :: { rpr with cluster := m } ::
        (P ++ BF)).length) 0
      ({ hph with cluster := m } :: { rpr with cluster := m } :: (P ++ BF)) =
      { hph with cluster := m } :: { rpr with cluster := m } ::
        (P ++ BF.map (fun g => { g with mask := g.mask ||| cfar })) := by
    rw [show ({ hph with cluster := m } :: { rpr with cluster := m } ::
      (P ++ BF) : List GlyphInfo) =
      ({ hph with cluster := m } :: { rpr with cluster := m } :: P) ++ BF from rfl]
    rw [applyRange_append]
    rw [applyRange_before _ _ _ _ _
      (by simp only [List.length_cons, hPlen]; omega)]
    rw [applyRange_all _ _ _ _ _
      (by simp only [List.length_cons, hPlen]; omega)
      (by simp only [List.length_cons, List.length_append, hPlen, hBFlen]; omega)]
    simp only [List.cons_append]
  rw [happ]
  rw [khmerScan_skip pref cfar (B.length + 2) (A.length + 1 + 1) 2 _ ?hskip]
  case hskip =>
    intro j hj1 hj2
    obtain ⟨k, rfl⟩ : ∃ k, j = k + 2 := ⟨j - 2, by omega⟩
    rw [show k + 2 = (k + 1) + 1 from rfl]
    simp only [List.getD_cons_succ]
    simp only [List.length_cons, List.length_append, hPlen, List.length_map,
      hBFlen] at hj2
    have hv := getD_mem_of_lt
      (P ++ BF.map (fun g => { g with mask := g.mask ||| cfar })) default k
      (by simp only [List.length_append, hPlen, List.length_map, hBFlen]; omega)
    rcases List.mem_append.mp hv with hmem | hmem
    · rw [hPdef] at hmem
      rcases List.mem_cons.mp hmem with he | hmem2
      · rw [he]
        exact ⟨ha0.1, ha0.2⟩
      · rw [hAF] at hmem2
        obtain ⟨u, huAF, hue⟩ := List.mem_map.mp hmem2
        obtain ⟨a, haA, hae⟩ := List.mem_map.mp huAF
        rw [← hue, ← hae]
        exact ⟨(hA1 a haA).1, (hA1 a haA).2⟩
    · obtain ⟨u, huBF, hue⟩ := List.mem_map.mp hmem
      obtain ⟨b, hbB, hbe⟩ := List.mem_map.mp (hBF ▸ huBF)
      rw [← hue, ← hbe]
      exact ⟨(hB1 b hbB).1, (hB1 b hbB).2⟩
  rw [hPdef, hphdef, hrprdef, hAF, hBF, List.map_map, List.map_map]
  rfl

theorem reorderKhmer_vpre (pm pref cfar : Nat) (a0 v : GlyphInfo)
    (A B : List GlyphInfo)
    (hV : v.complexCategory = khmVPre)
    (hns : ∀ g ∈ a0 :: (A ++ B),
      g.complexCategory ≠ khmH ∧ g.complexCategory ≠ khmVPre) :
    reorderConsonantSyllable pm pref cfar (a0 :: (A ++ v :: B)) =
      { v with mask := v.mask ||| pm, cluster := minClusterOf (a0 :: (A ++ [v])) } ::
      (({ a0 with cluster := minClusterOf (a0 :: (A ++ [v])) } ::
        A.map (fun g => { g with mask := g.mask ||| pm, cluster := minClusterOf (a0 :: (A ++ [v])) })) ++
       B.map (fun g => { g with mask := g.mask ||| pm })) := by
  have ha0 : a0.complexCategory ≠ khmH ∧ a0.complexCategory ≠ khmVPre :=
    hns a0 (List.mem_cons_self _ _)
  have hA1 : ∀ g ∈ A, g.complexCategory ≠ khmH ∧ g.complexCategory ≠ khmVPre :=
    fun g hg => hns g (List.mem_cons_of_mem _ (List.mem_append_left _ hg))
  have hB1 : ∀ g ∈ B, g.complexCategory ≠ khmH ∧ g.complexCategory ≠ khmVPre :=
    fun g hg => hns g (List.mem_cons_of_mem _ (List.mem_append_right _ hg))
  rw [reorderConsonantSyllable]
  have hP0 : khmerPostBaseMask pm (a0 :: (A ++ v :: B)) =
      a0 :: (A.map (fun g => { g with mask := g.mask ||| pm }) ++
        { v with mask := v.mask ||| pm } ::
        B.map (fun g => { g with mask := g.mask ||| pm })) := by
    simp only [khmerPostBaseMask, List.map_append, List.map_cons]
  rw [hP0]
  set m := minClusterOf (a0 :: (A ++ [v])) with hm
  set AF := A.map (fun g => { g with mask := g.mask ||| pm }) with hAF
  set BF := B.map (fun g => { g with mask := g.mask ||| pm }) with hBF
  set vv := { v with mask := v.mask ||| pm } with hvvdef
  have hlen : (a0 :: (A ++ v :: B)).length = (B.length + 2) + A.length := by
    simp only [List.length_cons, List.length_append]
    omega
  rw [hlen]
  have hwalk : ∀ j, 1 ≤ j → j < 1 + A.length →
      (((a0 :: (AF ++ vv :: BF)).getD j default).complexCategory ≠ khmH ∧
       ((a0 :: (AF ++ vv :: BF)).getD j default).complexCategory ≠ khmVPre) := by
    intro j hj1 hj2
    obtain ⟨k, rfl⟩ : ∃ k, j = k + 1 := ⟨j - 1, by omega⟩
    rw [List.getD_cons_succ]
    rw [getD_append_left _ _ _ k (by rw [hAF, List.length_map]; omega)]
    have hmem := getD_mem_of_lt AF default k (by rw [hAF, List.length_map]; omega)
    rw [hAF] at hmem
    obtain ⟨a, haA, hae⟩ := List.mem_map.mp hmem
    rw [hAF, ← hae]
    exact ⟨(hA1 a haA).1, (hA1 a haA).2⟩
  rw [khmerScan_walk pref cfar A.length (B.length + 2) 1 0 _ hwalk]
  rw [show 1 + A.length = A.length + 1 from Nat.add_comm 1 A.length]
  have hlenL : (a0 :: (AF ++ vv :: BF)).length = A.length + B.length + 2 := by
    simp only [List.length_cons, List.length_append, hAF, hBF, List.length_map]
    omega
  have hgi : (a0 :: (AF ++ vv :: BF)).getD (A.length + 1) default = vv := by
    rw [show (a0 :: (AF ++ vv :: BF) : List GlyphInfo) =
      (a0 :: AF) ++ vv :: BF from rfl]
    rw [show A.length + 1 = (a0 :: AF).length by
      rw [List.length_cons, hAF, List.length_map]]
    exact getD_append_length _ _ _ _
  have hcc : ((a0 :: (AF ++ vv :: BF)).getD (A.length + 1)
      default).complexCategory = khmVPre := by
    rw [hgi]
    exact hV
  rw [show B.length + 2 = (B.length + 1) + 1 by omega]
  rw [khmerScan_step_VPre pref cfar (B.length + 1) (A.length + 1) 0 _ _ rfl
    (by rw [hlenL]; omega)
    (fun hcon => by rw [hcon.1] at hcc; exact absurd hcc (by decide))
    hcc]
  have hT'len : (((a0 : GlyphInfo) :: AF) ++ [vv]).length = A.length + 1 + 1 := by
    simp only [List.length_append, List.length_cons, List.length_nil, hAF,
      List.length_map]
  have hslice : sliceMinCluster (a0 :: (AF ++ vv :: BF)) 0 (A.length + 1 + 1) =
      m := by
    simp only [sliceMinCluster, List.drop_zero, Nat.sub_zero]
    rw [show (a0 :: (AF ++ vv :: BF) : List GlyphInfo) =
      (a0 :: AF) ++ vv :: BF from rfl]
    rw [List.append_cons (a0 :: AF) vv BF]
    rw [show A.length + 1 + 1 = (((a0 : GlyphInfo) :: AF) ++ [vv]).length
      from hT'len.symm]
    rw [List.take_left]
    rw [hm, minClusterOf_eq_minNatList, minClusterOf_eq_minNatList]
    congr 1
    simp only [hAF, hvvdef, List.map_append, List.map_cons, List.map_nil,
      List.map_map]
    rfl
  have hMeq : mergeClusters (a0 :: (AF ++ vv :: BF)) 0 (A.length + 1 + 1) =
      (({ a0 with cluster := m } :: AF.map (fun g => { g with cluster := m })) ++
        [{ vv with cluster := m }]) ++ BF := by
    simp only [mergeClusters]
    rw [hslice]
    rw [show (a0 :: (AF ++ vv :: BF) : List GlyphInfo) =
      (a0 :: AF) ++ vv :: BF from rfl]
    rw [List.append_cons (a0 :: AF) vv BF]
    rw [applyRange_append]
    rw [applyRange_all _ _ _ _ _ (Nat.le_refl 0) (by rw [hT'len]; omega)]
    rw [applyRange_none _ _ _ _ _ (by rw [hT'len]; omega)]
    simp only [List.map_append, List.map_cons, List.map_nil]
  rw [hMeq]
  set P := ({ a0 with cluster := m } :: AF.map (fun g => { g with cluster := m }))
    with hPdef
  have hPlen : P.length = A.length + 1 := by
    rw [hPdef]
    simp only [List.length_cons, hAF, List.length_map]
  have hQ1len : (P ++ [{ vv with cluster := m }]).length = A.length + 1 + 1 := by
    rw [List.length_append, hPlen]
    rfl
  have hMgi : ((P ++ [{ vv with cluster := m }]) ++ BF).getD (A.length + 1)
      default = { vv with cluster := m } := by
    rw [List.append_assoc, List.singleton_append, ← hPlen]
    exact getD_append_length _ _ _ _
  have hMtake : ((P ++ [{ vv with cluster := m }]) ++ BF).take (A.length + 1) =
      P := by
    rw [List.append_assoc, List.singleton_append, ← hPlen]
    exact List.take_left _ _
  have hMdrop : ((P ++ [{ vv with cluster := m }]) ++ BF).drop (A.length + 1 + 1) =
      BF := by
    rw [← hQ1len]
    exact List.drop_left _ _
  rw [hMgi, hMtake, hMdrop]
  have hBFlen : BF.length = B.length := by rw [hBF, List.length_map]
  rw [khmerScan_skip pref cfar (B.length + 1) (A.length + 1 + 1) 0 _ ?hskip]
  case hskip =>
    intro j hj1 hj2
    obtain ⟨k, rfl⟩ : ∃ k, j = k + 1 := ⟨j - 1, by omega⟩
    simp only [List.getD_cons_succ]
    simp only [List.length_cons, List.length_append, hPlen, hBFlen] at hj2
    have hv := getD_mem_of_lt (P ++ BF) default k
      (by simp only [List.length_append, hPlen, hBFlen]; omega)
    rcases List.mem_append.mp hv with hmem | hmem
    · rw [hPdef] at hmem
      rcases List.mem_cons.mp hmem with he | hmem2
      · rw [he]
        exact ⟨ha0.1, ha0.2⟩
      · rw [hAF] at hmem2
        obtain ⟨u, huAF, hue⟩ := List.mem_map.mp hmem2
        obtain ⟨a, haA, hae⟩ := List.mem_map.mp huAF
        rw [← hue, ← hae]
        exact ⟨(hA1 a haA).1, (hA1 a haA).2⟩
    · obtain ⟨b, hbB, hbe⟩ := List.mem_map.mp (hBF ▸ hmem)
      rw [← hbe]
      exact ⟨(hB1 b hbB).1, (hB1 b hbB).2⟩
  rw [hPdef, hvvdef, hAF, hBF, List.map_map]
  rfl

/-- C8: In the Khmer shaper's single reordering pass over a consonant
syllable, a Coeng (`H`) followed by `Ra` — found within the first Coeng
occurrences — is moved as a pair to the syllable start: clusters of the
moved range are merged to their minimum, both glyphs are tagged with the
`pref` mask, and every glyph after the pair is tagged with the `cfar` mask
(every glyph after the first having already received the post-base mask
`pm`); and a left matra of category `VPre` is moved to the syllable start
with the clusters of the moved range merged. -/
theorem khmer_reorder_coeng_ra_vpre :
    (∀ (pm pref cfar : Nat) (a0 h r : GlyphInfo) (A B : List GlyphInfo),
      cfar ≠ 0 → h.complexCategory = khmH → r.complexCategory = khmRa →
      (∀ g ∈ a0 :: (A ++ B),
        g.complexCategory ≠ khmH ∧ g.complexCategory ≠ khmVPre) →
      reorderConsonantSyllable pm pref cfar (a0 :: (A ++ h :: r :: B)) =
        { h with mask := h.mask ||| pm ||| pref, cluster := minClusterOf (a0 :: (A ++ [h, r])) } ::
        { r with mask := r.mask ||| pm ||| pref, cluster := minClusterOf (a0 :: (A ++ [h, r])) } ::
        (({ a0 with cluster := minClusterOf (a0 :: (A ++ [h, r])) } ::
          A.map (fun g => { g with mask := g.mask ||| pm, cluster := minClusterOf (a0 :: (A ++ [h, r])) })) ++
         B.map (fun g => { g with mask := g.mask ||| pm ||| cfar }))) ∧
    (∀ (pm pref cfar : Nat) (a0 v : GlyphInfo) (A B : List GlyphInfo),
      v.complexCategory = khmVPre →
      (∀ g ∈ a0 :: (A ++ B),
        g.complexCategory ≠ khmH ∧ g.complexCategory ≠ khmVPre) →
      reorderConsonantSyllable pm pref cfar (a0 :: (A ++ v :: B)) =
        { v with mask := v.mask ||| pm, cluster := minClusterOf (a0 :: (A ++ [v])) } ::
        (({ a0 with cluster := minClusterOf (a0 :: (A ++ [v])) } ::
          A.map (fun g => { g with mask := g.mask ||| pm, cluster := minClusterOf (a0 :: (A ++ [v])) })) ++
         B.map (fun g => { g with mask := g.mask ||| pm }))) :=
  ⟨fun pm pref cfar a0 h r A B hc hH hR hns =>
     reorderKhmer_coengRa pm pref cfar a0 h r A B hc hH hR hns,
   fun pm pref cfar a0 v A B hV hns =>
     reorderKhmer_vpre pm pref cfar a0 v A B hV hns⟩

/-- Witness for C8: a three-glyph syllable base+Coeng+Ra is reordered to
Coeng,Ra,base with merged cluster 2 and pref-tagged pair, and a two-glyph
syllable base+VPre is reordered to VPre,base. -/
theorem khmer_reorder_coeng_ra_vpre_witness :
    reorderConsonantSyllable 1 2 4
      [⟨2, 0, 0, 0, 0, 0⟩, ⟨3, 0, 0, 0, 0, khmH⟩, ⟨4, 0, 0, 0, 0, khmRa⟩] =
      [⟨2, 3, 0, 0, 0, khmH⟩, ⟨2, 3, 0, 0, 0, khmRa⟩, ⟨2, 0, 0, 0, 0, 0⟩] ∧
    reorderConsonantSyllable 1 2 4
      [⟨2, 0, 0, 0, 0, 0⟩, ⟨3, 0, 0, 0, 0, khmVPre⟩] =
      [⟨2, 1, 0, 0, 0, khmVPre⟩, ⟨2, 0, 0, 0, 0, 0⟩] := by
  constructor
  · have h1 := khmer_reorder_coeng_ra_vpre.1 1 2 4 ⟨2, 0, 0, 0, 0, 0⟩
      ⟨3, 0, 0, 0, 0, khmH⟩ ⟨4, 0, 0, 0, 0, khmRa⟩ [] [] (by decide) rfl rfl
      (by decide)
    exact h1.trans (by decide)
  · have h2 := khmer_reorder_coeng_ra_vpre.2 1 2 4 ⟨2, 0, 0, 0, 0, 0⟩
      ⟨3, 0, 0, 0, 0, khmVPre⟩ [] [] rfl (by decide)
    exact h2.trans (by decide)

end Typesetting
